import Mathlib

/-! Formal model of the parameterized SQL query-construction layer of the
mcp-sqlserver repository: the QueryBuilder static methods (buildSelectQuery,
buildInsertQuery, buildUpdateQuery, buildDeleteQuery in
src/database/query-builder.ts), the bulk tools (bulkInsert, batchUpdate,
batchDelete in src/tools/bulk-tools.ts) and the tool-level zod validation of
src/tools/crud-tools.ts.  SQL text is modelled as a list of characters
(string literals enter through String.data); JavaScript runtime values are
modelled by an inductive type recording exactly the structure the builders
inspect (undefined-ness, array-ness and array length). -/

namespace SqlMcp

/-- Text: JavaScript strings are modelled as lists of characters. -/
abbrev Str : Type := List Char

/-- Fuel-driven decimal rendering helper; any fuel of at least the rendered
number yields the full digit sequence.  Structural recursion on the fuel
keeps the definition computable inside the kernel. -/
def decCharsAux : Nat → Nat → Str
  | 0, n => [Nat.digitChar n]
  | f + 1, n =>
    if n < 10 then [Nat.digitChar n]
    else decCharsAux f (n / 10) ++ [Nat.digitChar (n % 10)]

/-- Decimal rendering (most significant digit first) of a natural number:
the character sequence a JavaScript template literal produces when a
nonnegative integer such as a parameter counter is interpolated. -/
def decChars (n : Nat) : Str := decCharsAux n n

theorem decCharsAux_fuel (n : Nat) : ∀ f g, n ≤ f → n ≤ g →
    decCharsAux f n = decCharsAux g n := by
  induction n using Nat.strong_induction_on with
  | _ n ih =>
    intro f g hf hg
    by_cases h10 : n < 10
    · cases f with
      | zero =>
        cases g with
        | zero => rfl
        | succ g => simp [decCharsAux, if_pos h10, show n = 0 by omega]
      | succ f =>
        cases g with
        | zero => simp [decCharsAux, if_pos h10, show n = 0 by omega]
        | succ g => simp [decCharsAux, if_pos h10]
    · have hf1 : 0 < f := by omega
      have hg1 : 0 < g := by omega
      cases f with
      | zero => omega
      | succ f =>
        cases g with
        | zero => omega
        | succ g =>
          have hlt : n / 10 < n := Nat.div_lt_self (by omega) (by omega)
          simp only [decCharsAux, if_neg h10]
          rw [ih (n / 10) hlt f g (by omega) (by omega)]

theorem decChars_eq (n : Nat) :
    decChars n = if n < 10 then [Nat.digitChar n]
      else decChars (n / 10) ++ [Nat.digitChar (n % 10)] := by
  by_cases h10 : n < 10
  · cases hn : n with
    | zero => simp [decChars, decCharsAux, h10]
    | succ m => simp [decChars, decCharsAux, hn ▸ h10]
  · have hlt : n / 10 < n := Nat.div_lt_self (by omega) (by omega)
    have hn : 0 < n := by omega
    cases hh : n with
    | zero => omega
    | succ m =>
      simp only [if_neg h10, decChars]
      rw [← hh]
      have : decCharsAux n n = decCharsAux (m + 1) n := by rw [hh]
      rw [this]
      simp only [decCharsAux, if_neg (hh ▸ h10)]
      rw [decCharsAux_fuel (n / 10) m (n / 10) (by omega) (Nat.le_refl _)]

/-- Value of a digit character, inverse to Nat.digitChar on digits. -/
def digitVal (c : Char) : Nat := c.toNat - 48

/-- Decoding of a most-significant-first digit list. -/
def decVal (l : Str) : Nat := l.foldl (fun a c => 10 * a + digitVal c) 0

theorem digitVal_digitChar (d : Nat) (h : d < 10) :
    digitVal (Nat.digitChar d) = d := by
  interval_cases d <;> rfl

theorem isDigit_digitChar (d : Nat) (h : d < 10) :
    (Nat.digitChar d).isDigit = true := by
  interval_cases d <;> rfl

theorem decVal_decChars (n : Nat) : decVal (decChars n) = n := by
  induction n using Nat.strong_induction_on with
  | _ n ih =>
    rw [decChars_eq]
    split
    · simp [decVal, digitVal_digitChar n (by omega)]
    · have h10 : 10 ≤ n := by omega
      have hlt : n / 10 < n := Nat.div_lt_self (by omega) (by omega)
      have := ih (n / 10) hlt
      simp only [decVal, List.foldl_append, List.foldl_cons, List.foldl_nil] at this ⊢
      rw [this, digitVal_digitChar (n % 10) (Nat.mod_lt n (by omega))]
      omega

theorem decChars_inj {m n : Nat} (h : decChars m = decChars n) : m = n := by
  have hm := decVal_decChars m
  rw [h, decVal_decChars] at hm
  omega

theorem decChars_digits (n : Nat) : ∀ c ∈ decChars n, c.isDigit = true := by
  induction n using Nat.strong_induction_on with
  | _ n ih =>
    rw [decChars_eq]
    split
    · intro c hc
      simp only [List.mem_singleton] at hc
      subst hc
      exact isDigit_digitChar n (by omega)
    · intro c hc
      rcases List.mem_append.mp hc with h | h
      · exact ih (n / 10) (Nat.div_lt_self (by omega) (by omega)) c h
      · simp only [List.mem_singleton] at h
        subst h
        exact isDigit_digitChar (n % 10) (Nat.mod_lt n (by omega))

theorem decChars_ne_nil (n : Nat) : decChars n ≠ [] := by
  rw [decChars_eq]
  split <;> simp

/-- Head of the list is not a digit character (vacuously true for the empty
list); the shape of whatever may legally follow a rendered counter. -/
def headNotDigit : Str → Bool
  | [] => true
  | c :: _ => !c.isDigit

theorem digitRun_inj {a b : Nat} {t u : Str}
    (ht : headNotDigit t = true) (hu : headNotDigit u = true)
    (h : decChars a ++ t = decChars b ++ u) : a = b ∧ t = u := by
  have htake : ∀ (n : Nat) (r : Str), headNotDigit r = true →
      (decChars n ++ r).takeWhile Char.isDigit = decChars n := by
    intro n r hr
    rw [List.takeWhile_append_of_pos (by
      simpa [List.all_eq_true] using decChars_digits n)]
    cases r with
    | nil => simp
    | cons c cs =>
      simp only [headNotDigit, Bool.not_eq_true'] at hr
      simp [List.takeWhile_cons, hr]
  have hd : decChars a = decChars b := by
    have h1 := htake a t ht
    have h2 := htake b u hu
    rw [← h1, ← h2, h]
  refine ⟨decChars_inj hd, ?_⟩
  rw [hd] at h
  exact List.append_cancel_left h

/-- Join of a list of strings with a separator, as Array.prototype.join. -/
def joinSep (sep : Str) : List Str → Str
  | [] => []
  | [x] => x
  | x :: xs => x ++ sep ++ joinSep sep xs

/-- Substring relation on character lists. -/
def isSub (pat s : Str) : Prop := ∃ a b, s = a ++ pat ++ b

theorem isSub_extend {pat s : Str} (a b : Str) (h : isSub pat s) :
    isSub pat (a ++ s ++ b) := by
  obtain ⟨x, y, rfl⟩ := h
  exact ⟨a ++ x, y ++ b, by simp⟩

theorem joinSep_mem_isSub {sep : Str} {x : Str} {l : List Str} (h : x ∈ l) :
    isSub x (joinSep sep l) := by
  induction l with
  | nil => cases h
  | cons y ys ih =>
    cases ys with
    | nil =>
      simp only [List.mem_singleton] at h
      subst h
      exact ⟨[], [], by simp [joinSep]⟩
    | cons z zs =>
      rcases List.mem_cons.mp h with h | h
      · subst h
        exact ⟨[], sep ++ joinSep sep (z :: zs), by simp [joinSep]⟩
      · obtain ⟨a, b, hab⟩ := ih h
        exact ⟨y ++ sep ++ a, b, by simp [joinSep, hab]⟩

/-- Runtime value as inspected by the query builders: a JavaScript value is
either undefined, an array (Array.isArray true), or any other value — a
scalar, carried opaquely as a string since the builders never inspect it. -/
inductive Val : Type where
  | undef : Val
  | prim (s : Str) : Val
  | arr (vs : List Val) : Val

instance : Inhabited Val := ⟨Val.undef⟩

/-- Shape of a value as far as SQL-text emission is concerned: array-ness
with length, everything else collapsed. -/
def Val.shape : Val → Option Nat
  | .arr vs => some vs.length
  | _ => none

/-- Record / parameter map: a JavaScript object modelled as an insertion-
ordered association list whose keys stay pairwise distinct under objSet. -/
abbrev Obj : Type := List (Str × Val)

/-- Keys of an object, in insertion order (Object.keys). -/
def objKeys (m : Obj) : List Str := m.map Prod.fst

/-- Key-membership test. -/
def objHas : Obj → Str → Bool
  | [], _ => false
  | p :: rest, k => decide (p.1 = k) || objHas rest k

/-- Property assignment m[k] = v: overwrites in place when the key exists
(keeping its insertion position), otherwise appends at the end. -/
def objSet (m : Obj) (k : Str) (v : Val) : Obj :=
  if objHas m k then m.map (fun p => if p.1 = k then (k, v) else p)
  else m ++ [(k, v)]

/-- Sequence of property assignments, applied in order. -/
def objFold (m : Obj) (bs : List (Str × Val)) : Obj :=
  bs.foldl (fun acc kv => objSet acc kv.1 kv.2) m

/-- Property read m[k]: the first entry with that key. -/
def objGet : Obj → Str → Option Val
  | [], _ => none
  | p :: rest, k => if p.1 = k then some p.2 else objGet rest k

theorem objHas_iff (m : Obj) (k : Str) : objHas m k = true ↔ k ∈ objKeys m := by
  induction m with
  | nil => simp [objHas, objKeys]
  | cons p rest ih =>
    simp [objHas, objKeys, ih, List.mem_cons]
    tauto

theorem objKeys_overwrite (m : Obj) (k : Str) (v : Val) :
    objKeys (m.map (fun p => if p.1 = k then (k, v) else p)) = objKeys m := by
  induction m with
  | nil => rfl
  | cons p rest ih =>
    by_cases hp : p.1 = k
    · simp only [List.map_cons, if_pos hp, objKeys] at ih ⊢
      simp [ih, hp]
    · simp only [List.map_cons, if_neg hp, objKeys] at ih ⊢
      simp [ih]

theorem objKeys_objSet (m : Obj) (k : Str) (v : Val) :
    objKeys (objSet m k v)
      = if objHas m k then objKeys m else objKeys m ++ [k] := by
  cases h : objHas m k
  · simp only [objSet, h, Bool.false_eq_true, if_false, objKeys, List.map_append]
    rfl
  · simp only [objSet, h, if_true]
    exact objKeys_overwrite m k v

theorem objSet_cons_ne (p : Str × Val) (rest : Obj) (k : Str) (v : Val)
    (hp : p.1 ≠ k) : objSet (p :: rest) k v = p :: objSet rest k v := by
  by_cases h : objHas rest k <;>
    simp [objSet, objHas, hp, h]

theorem objGet_overwrite_ne (m : Obj) (k k' : Str) (v : Val) (hne : k' ≠ k) :
    objGet (m.map (fun p => if p.1 = k then (k, v) else p)) k' = objGet m k' := by
  induction m with
  | nil => rfl
  | cons p rest ih =>
    by_cases hp : p.1 = k
    · have h1 : ¬ k = k' := fun h => hne h.symm
      have h2 : ¬ p.1 = k' := by rw [hp]; exact h1
      simp [objGet, hp, h1, h2, ih]
    · by_cases hpk : p.1 = k'
      · simp only [List.map_cons, if_neg hp, objGet, if_pos hpk]
      · simp only [List.map_cons, if_neg hp, objGet, if_neg hpk, ih]

theorem objGet_objSet (m : Obj) (k k' : Str) (v : Val) :
    objGet (objSet m k v) k' = if k' = k then some v else objGet m k' := by
  induction m with
  | nil =>
    simp only [objSet, objHas, Bool.false_eq_true, if_false, List.nil_append, objGet]
    by_cases h : k' = k
    · simp [h]
    · have h2 : k ≠ k' := Ne.symm h
      simp [h, h2]
  | cons p rest ih =>
    by_cases hp : p.1 = k
    · have hhas : objHas (p :: rest) k = true := by simp [objHas, hp]
      simp only [objSet, hhas, if_true, List.map_cons, if_pos hp]
      by_cases h : k' = k
      · simp [objGet, h]
      · have h2 : ¬ k = k' := fun hh => h hh.symm
        have h3 : ¬ p.1 = k' := by rw [hp]; exact h2
        simp only [objGet, h2, if_neg h2, if_neg h, objGet_overwrite_ne rest k k' v h]
        simp [h3]
    · rw [objSet_cons_ne p rest k v hp]
      by_cases hpk : p.1 = k'
      · have h : ¬ k' = k := by rw [← hpk]; exact fun hh => hp hh
        simp [objGet, hpk, h]
      · simp [objGet, hpk, ih]

theorem objKeys_objFold_toFinset (m : Obj) (bs : List (Str × Val)) :
    (objKeys (objFold m bs)).toFinset
      = (objKeys m).toFinset ∪ (bs.map Prod.fst).toFinset := by
  induction bs generalizing m with
  | nil => simp [objFold]
  | cons b rest ih =>
    have hstep : objFold m (b :: rest) = objFold (objSet m b.1 b.2) rest := rfl
    rw [hstep, ih, objKeys_objSet]
    by_cases h : objHas m b.1
    · have hb : b.1 ∈ (objKeys m).toFinset := by
        simpa using (objHas_iff m b.1).mp h
      simp only [h, if_true, List.map_cons, List.toFinset_cons]
      rw [Finset.union_insert, Finset.insert_eq_self.mpr (Finset.mem_union_left _ hb)]
    · simp only [h, Bool.false_eq_true, if_false, List.map_cons, List.toFinset_cons,
        List.toFinset_append]
      ext x
      simp only [Finset.mem_union, Finset.mem_insert, List.toFinset_cons,
        List.mem_toFinset, List.mem_singleton, Finset.mem_singleton]
      tauto

theorem objKeys_objFold_nodup (m : Obj) (bs : List (Str × Val))
    (h : (objKeys m).Nodup) : (objKeys (objFold m bs)).Nodup := by
  induction bs generalizing m with
  | nil => exact h
  | cons b rest ih =>
    refine ih (objSet m b.1 b.2) ?_
    rw [objKeys_objSet]
    by_cases hh : objHas m b.1
    · simpa [hh] using h
    · have : b.1 ∉ objKeys m := fun hx => hh ((objHas_iff m b.1).mpr hx)
      simp only [hh, Bool.false_eq_true, if_false]
      simpa [List.nodup_append] using ⟨h, this⟩

theorem objGet_objFold_not_mem (m : Obj) (bs : List (Str × Val)) (k : Str)
    (h : k ∉ bs.map Prod.fst) : objGet (objFold m bs) k = objGet m k := by
  induction bs generalizing m with
  | nil => rfl
  | cons b rest ih =>
    have hne : k ≠ b.1 := fun hk => h (by simp [hk])
    have hstep : objFold m (b :: rest) = objFold (objSet m b.1 b.2) rest := rfl
    rw [hstep, ih _ (fun hx => h (by simp; exact Or.inr (by simpa using hx))),
      objGet_objSet, if_neg hne]

theorem objGet_objFold_of_nodup (m : Obj) (bs : List (Str × Val))
    (k : Str) (v : Val) (hmem : (k, v) ∈ bs) (hnd : (bs.map Prod.fst).Nodup) :
    objGet (objFold m bs) k = some v := by
  induction bs generalizing m with
  | nil => cases hmem
  | cons b rest ih =>
    have hstep : objFold m (b :: rest) = objFold (objSet m b.1 b.2) rest := rfl
    rcases List.mem_cons.mp hmem with h | h
    · subst h
      have hk : k ∉ rest.map Prod.fst := by
        simpa using (List.nodup_cons.mp hnd).1
      rw [hstep, objGet_objFold_not_mem _ _ _ hk, objGet_objSet, if_pos rfl]
    · exact hstep ▸ ih (objSet m b.1 b.2) h (List.nodup_cons.mp hnd).2
/-- Identifier characters of a placeholder name, as scanned after an at
sign: letters, digits and the underscore. -/
def isIdChar (c : Char) : Bool := c.isAlphanum || c == '_'

/-- Fuel-driven placeholder scanner; any fuel of at least the text length
yields the full scan, and the structural recursion on the fuel keeps it
computable inside the kernel. -/
def phsAuxF : Nat → Str → List Str
  | 0, _ => []
  | _ + 1, [] => []
  | f + 1, c :: cs =>
    if c = '@' then cs.takeWhile isIdChar :: phsAuxF f (cs.dropWhile isIdChar)
    else phsAuxF f cs

/-- Placeholder names referenced in a piece of SQL text: each at sign opens
a placeholder whose name is the longest following run of identifier
characters. -/
def phsAux (s : Str) : List Str := phsAuxF s.length s

theorem phsAuxF_fuel_aux : ∀ (n : Nat) (s : Str), s.length ≤ n →
    ∀ f g, s.length ≤ f → s.length ≤ g → phsAuxF f s = phsAuxF g s := by
  intro n
  induction n using Nat.strong_induction_on with
  | _ n ih =>
    intro s hs f g hf hg
    cases s with
    | nil =>
      cases f with
      | zero => cases g <;> rfl
      | succ f => cases g with
        | zero => rfl
        | succ g => rfl
    | cons c cs =>
      cases f with
      | zero => simp at hf
      | succ f =>
        cases g with
        | zero => simp at hg
        | succ g =>
          simp only [List.length_cons] at hf hg hs
          have hcs : cs.length < n := by omega
          have hsub : (cs.dropWhile isIdChar).length ≤ cs.length :=
            List.Sublist.length_le (List.dropWhile_sublist _)
          simp only [phsAuxF]
          split
          · rw [ih cs.length hcs (cs.dropWhile isIdChar) hsub f g
              (by omega) (by omega)]
          · rw [ih cs.length hcs cs (Nat.le_refl _) f g (by omega) (by omega)]

theorem phsAuxF_fuel (s : Str) : ∀ f g, s.length ≤ f → s.length ≤ g →
    phsAuxF f s = phsAuxF g s :=
  phsAuxF_fuel_aux s.length s (Nat.le_refl _)

theorem phsAux_cons (c : Char) (cs : Str) :
    phsAux (c :: cs)
      = if c = '@' then cs.takeWhile isIdChar :: phsAux (cs.dropWhile isIdChar)
        else phsAux cs := by
  show phsAuxF (cs.length + 1) (c :: cs) = _
  simp only [phsAuxF]
  split
  · rw [phsAuxF_fuel (cs.dropWhile isIdChar) cs.length (cs.dropWhile isIdChar).length
      (List.Sublist.length_le (List.dropWhile_sublist _)) (Nat.le_refl _)]
    rfl
  · rfl

/-- Head of the text is not an identifier character (true for empty text):
what may follow a completed placeholder without extending its name. -/
def headNotId : Str → Bool
  | [] => true
  | c :: _ => !isIdChar c

theorem phsAux_append_noAt (a b : Str) (h : '@' ∉ a) :
    phsAux (a ++ b) = phsAux b := by
  induction a with
  | nil => rfl
  | cons c cs ih =>
    have hc : ¬ c = '@' := fun hh => h (by simp [hh])
    rw [List.cons_append, phsAux_cons, if_neg hc]
    exact ih (fun hx => h (List.mem_cons_of_mem _ hx))

theorem phsAux_at (name rest : Str) (hname : ∀ c ∈ name, isIdChar c = true)
    (hrest : headNotId rest = true) :
    phsAux ('@' :: (name ++ rest)) = name :: phsAux rest := by
  rw [phsAux_cons, if_pos rfl]
  have hall : ∀ c ∈ name, isIdChar c = true := hname
  have htw : rest.takeWhile isIdChar = [] := by
    cases rest with
    | nil => rfl
    | cons c cs =>
      simp only [headNotId, Bool.not_eq_true'] at hrest
      simp [List.takeWhile_cons, hrest]
  have hdw : rest.dropWhile isIdChar = rest := by
    cases rest with
    | nil => rfl
    | cons c cs =>
      simp only [headNotId, Bool.not_eq_true'] at hrest
      simp [List.dropWhile_cons, hrest]
  rw [List.takeWhile_append_of_pos hall, List.dropWhile_append_of_pos hall,
    htw, hdw, List.append_nil]

/-- Index of the first occurrence of pat in the text, as returned by the
JavaScript String.prototype.indexOf (none standing for the -1 result). -/
def idxOf? (pat : Str) : Str → Option Nat
  | [] => if pat.isPrefixOf [] then some 0 else none
  | c :: t => if pat.isPrefixOf (c :: t) then some 0 else (idxOf? pat t).map (· + 1)

theorem idxOf?_of_prefix_first (pat A B : Str) (hpre : pat.isPrefixOf B = true)
    (hno : ∀ p, p < A.length → pat.isPrefixOf ((A ++ B).drop p) = false) :
    idxOf? pat (A ++ B) = some A.length := by
  induction A with
  | nil =>
    cases B with
    | nil => simp [idxOf?, hpre]
    | cons c t => simp [idxOf?, hpre]
  | cons c t ih =>
    have h0 : pat.isPrefixOf (c :: (t ++ B)) = false := by
      have := hno 0 (by simp)
      simpa using this
    rw [List.cons_append, idxOf?, if_neg (by simp [h0])]
    have hrec := ih (fun p hp => by
      have := hno (p + 1) (by simpa using Nat.succ_lt_succ hp)
      simpa using this)
    rw [hrec]
    simp

theorem prefix_of_append_of_length_le {l a b : Str} (h : l <+: a ++ b)
    (hl : l.length ≤ a.length) : l <+: a := by
  have ht := List.take_prefix l.length a
  have he := List.prefix_iff_eq_take.mp h
  rw [List.take_append_of_le_length hl] at he
  rw [← he] at ht
  exact ht

theorem isSub_of_prefix_drop {pat A : Str} {p : Nat} (hp : p ≤ A.length)
    (h : pat <+: A.drop p) : isSub pat A := by
  obtain ⟨t, ht⟩ := h
  refine ⟨A.take p, t, ?_⟩
  rw [List.append_assoc, ht, List.take_append_drop]

theorem idxOf?_from_splice (A rest : Str) (h : ¬ isSub (" FROM".data) A) :
    idxOf? (" FROM".data) (A ++ (" FROM ".data ++ rest)) = some A.length := by
  apply idxOf?_of_prefix_first
  · rw [List.isPrefixOf_iff_prefix]
    have : (" FROM ".data : Str) = " FROM".data ++ [' '] := by rfl
    rw [this, List.append_assoc]
    exact List.prefix_append _ _
  · intro p hp
    by_contra hcon
    rw [Bool.not_eq_false, List.isPrefixOf_iff_prefix] at hcon
    by_cases hcase : p + 5 ≤ A.length
    · rw [List.drop_append_of_le_length (by omega)] at hcon
      have hpre : (" FROM".data : Str) <+: A.drop p :=
        prefix_of_append_of_length_le hcon (by simp; omega)
      exact h (isSub_of_prefix_drop (by omega) hpre)
    · have hi1 : 1 ≤ A.length - p := by omega
      have hi4 : A.length - p ≤ 4 := by omega
      have hilt : A.length - p < (" FROM".data : Str).length := by simp; omega
      have hlen : p + (A.length - p) < (A ++ (" FROM ".data ++ rest)).length := by
        simp
        omega
      have hget := hcon.getElem hilt
      have hd1 : A.length - p < ((A ++ (" FROM ".data ++ rest)).drop p).length := by
        rw [List.length_drop]
        simp at hlen ⊢
        omega
      have hdrop : ((A ++ (" FROM ".data ++ rest)).drop p).get ⟨A.length - p, hd1⟩
          = (A ++ (" FROM ".data ++ rest)).get ⟨p + (A.length - p), hlen⟩ := by
        simp only [List.get_eq_getElem]
        exact List.getElem_drop _
      have hA : (A ++ (" FROM ".data ++ rest)).get ⟨p + (A.length - p), hlen⟩ = ' ' := by
        simp only [List.get_eq_getElem]
        rw [List.getElem_append_right (by omega) ]
        have : p + (A.length - p) - A.length = 0 := by omega
        simp [this]
      have key : ∀ (j : Nat), 1 ≤ j → j ≤ 4 →
          (" FROM".data : Str)[j]? ≠ some ' ' := by
        intro j h1 h4
        interval_cases j <;> decide
      refine key (A.length - p) hi1 hi4 ?_
      rw [List.getElem?_eq_getElem hilt]
      exact congrArg some (hget.trans (hdrop.trans hA))

/-- Comparison operator of a WHERE condition: the closed enumeration of the
WhereCondition.operator union type of query-builder.ts. -/
inductive Op : Type where
  | eq | ne | gt | lt | ge | le | like | isin | notin | isNull | isNotNull
deriving DecidableEq

/-- Literal operator text, as written in the TypeScript union type and in
the emitted SQL. -/
def Op.str : Op → Str
  | .eq => "=".data
  | .ne => "!=".data
  | .gt => ">".data
  | .lt => "<".data
  | .ge => ">=".data
  | .le => "<=".data
  | .like => "LIKE".data
  | .isin => "IN".data
  | .notin => "NOT IN".data
  | .isNull => "IS NULL".data
  | .isNotNull => "IS NOT NULL".data

/-- WhereCondition of query-builder.ts: column, operator and the optional
value field, Val.undef standing for an absent value. -/
structure WC : Type where
  column : Str
  op : Op
  value : Val

/-- Join kind enumeration of JoinCondition.type. -/
inductive JoinKind : Type where
  | inner | left | right | full

/-- Literal join-kind text. -/
def JoinKind.str : JoinKind → Str
  | .inner => "INNER".data
  | .left => "LEFT".data
  | .right => "RIGHT".data
  | .full => "FULL".data

/-- JoinCondition of query-builder.ts: kind, joined table and the raw ON
expression text (onTxt models the field named on). -/
structure JoinC : Type where
  kind : JoinKind
  table : Str
  onTxt : Str

/-- Sort direction of an orderBy entry. -/
inductive Dir : Type where
  | asc | desc

/-- Literal direction text. -/
def Dir.str : Dir → Str
  | .asc => "ASC".data
  | .desc => "DESC".data

/-- QueryParams of query-builder.ts.  The columns field already carries the
destructuring default (a single * entry); limit and offset stay optional,
and the builder additionally treats a present 0 as absent because the
TypeScript code tests them with JavaScript if-truthiness. -/
structure QueryParams : Type where
  table : Str
  columns : List Str
  whereCs : List WC
  joins : List JoinC
  orderBy : List (Str × Dir)
  limit : Option Nat
  offset : Option Nat

/-- Truthiness of an optional numeric field: present and nonzero. -/
def truthy : Option Nat → Bool
  | some n => n != 0
  | none => false

/-- Body of the WHERE switch, written out verbatim in buildSelectQuery,
buildUpdateQuery and buildDeleteQuery: given the generated base parameter
name for this condition, produce the emitted clause (none when a membership
operator receives a non-array value, in which case nothing is pushed) and
the parameter bindings in assignment order. -/
def condStep (pn : Str) (w : WC) : Option Str × List (Str × Val) :=
  match w.op with
  | .isNull => (some ("[".data ++ w.column ++ "] IS NULL".data), [])
  | .isNotNull => (some ("[".data ++ w.column ++ "] IS NOT NULL".data), [])
  | .isin | .notin =>
    match w.value with
    | .arr vs =>
      let names := (List.range vs.length).map (fun i => pn ++ "_".data ++ decChars i)
      (some ("[".data ++ w.column ++ "] ".data ++ w.op.str ++ " (".data
          ++ joinSep ", ".data (names.map (fun n => "@".data ++ n)) ++ ")".data),
        names.zip vs)
    | _ => (none, [])
  | _ =>
    (some ("[".data ++ w.column ++ "] ".data ++ w.op.str ++ " @".data ++ pn),
      [(pn, w.value)])

/-- WHERE loop of the three builders: the base name is the prefix followed
by the counter, and the counter is consumed by every condition whatever its
operator; clauses and bindings accumulate in iteration order. -/
def buildConds (pfx : Str) : Nat → List WC → List Str × List (Str × Val)
  | _, [] => ([], [])
  | c, w :: ws =>
    let pn := pfx ++ decChars c
    let step := condStep pn w
    let rest := buildConds pfx (c + 1) ws
    (step.1.toList ++ rest.1, step.2 ++ rest.2)

/-- Model of QueryBuilder.buildSelectQuery.  The statement is assembled
exactly as the TypeScript method assembles it, including the limit-only
rewrite that splices the running text at indexOf(' FROM') + 6 — with the
JavaScript fallback -1 + 6 = 5 when the pattern is absent. -/
def buildSelectQuery (p : QueryParams) : Str × Obj :=
  let colsStr := joinSep ", ".data p.columns
  let q1 := "SELECT ".data ++ colsStr ++ " FROM [".data ++ p.table ++ "]".data
  let q2 := p.joins.foldl
    (fun q j => q ++ " ".data ++ j.kind.str ++ " JOIN [".data ++ j.table
      ++ "] ON ".data ++ j.onTxt) q1
  let wres := buildConds "param".data 1 p.whereCs
  let q3 := if p.whereCs.length > 0
    then q2 ++ " WHERE ".data ++ joinSep " AND ".data wres.1
    else q2
  let q4 := if p.orderBy.length > 0
    then q3 ++ " ORDER BY ".data
      ++ joinSep ", ".data (p.orderBy.map (fun o => "[".data ++ o.1 ++ "] ".data ++ o.2.str))
    else q3
  let q5 := if truthy p.limit then
      if truthy p.offset then
        q4 ++ " OFFSET ".data ++ decChars (p.offset.getD 0)
          ++ " ROWS FETCH NEXT ".data ++ decChars (p.limit.getD 0) ++ " ROWS ONLY".data
      else
        let cut := match idxOf? " FROM".data q4 with
          | some i => i + 6
          | none => 5
        "SELECT TOP ".data ++ decChars (p.limit.getD 0) ++ " ".data ++ colsStr
          ++ " FROM [".data ++ p.table ++ "]".data ++ q4.drop cut
    else q4
  (q5, objFold [] wres.2)

/-- Model of QueryBuilder.buildInsertQuery: one placeholder per record key
and the record itself returned as the parameter map. -/
def buildInsertQuery (table : Str) (data : Obj) : Str × Obj :=
  let columns := objKeys data
  let values := columns.map (fun col => "@".data ++ col)
  ("INSERT INTO [".data ++ table ++ "] ([".data ++ joinSep "], [".data columns
      ++ "]) VALUES (".data ++ joinSep ", ".data values ++ ")".data,
    data)

/-- Model of QueryBuilder.buildUpdateQuery: SET parameters named by the
record keys themselves, WHERE parameters drawn from the where_param pool
with counter starting at 1000 (the collision-avoidance device of the
source); the parameter map starts as a spread copy of the record and then
receives the WHERE assignments. -/
def buildUpdateQuery (table : Str) (data : Obj) (whereCs : List WC) : Str × Obj :=
  let setCols := objKeys data
  let setClauses := setCols.map (fun col => "[".data ++ col ++ "] = @".data ++ col)
  let q1 := "UPDATE [".data ++ table ++ "] SET ".data ++ joinSep ", ".data setClauses
  let wres := buildConds "where_param".data 1000 whereCs
  let q2 := if whereCs.length > 0
    then q1 ++ " WHERE ".data ++ joinSep " AND ".data wres.1
    else q1
  (q2, objFold data wres.2)

/-- Model of QueryBuilder.buildDeleteQuery: WHERE parameters from the param
pool with counter starting at 1. -/
def buildDeleteQuery (table : Str) (whereCs : List WC) : Str × Obj :=
  let q1 := "DELETE FROM [".data ++ table ++ "]".data
  let wres := buildConds "param".data 1 whereCs
  let q2 := if whereCs.length > 0
    then q1 ++ " WHERE ".data ++ joinSep " AND ".data wres.1
    else q1
  (q2, objFold [] wres.2)

/-- Batching loop for (let i = 0; i < data.length; i += batchSize) together
with slice(i, i + batchSize): the list of (absolute start index, batch)
pairs.  The recursion drops bs - 1 elements of the tail, which equals
dropping bs elements of the whole list whenever bs ≥ 1 — the zod schemas
guarantee bs ≥ 1, and a batch size of 0 would not terminate in JavaScript
either. -/
def chunksFromF (bs : Nat) : Nat → Nat → List α → List (Nat × List α)
  | 0, _, _ => []
  | _ + 1, _, [] => []
  | f + 1, i, x :: xs =>
    (i, (x :: xs).take bs) :: chunksFromF bs f (i + bs) (xs.drop (bs - 1))

def chunksFrom (bs : Nat) (i : Nat) (l : List α) : List (Nat × List α) :=
  chunksFromF bs l.length i l

theorem chunksFromF_fuel (bs : Nat) :
    ∀ (n : Nat) (l : List α), l.length ≤ n →
    ∀ f g i, l.length ≤ f → l.length ≤ g →
    chunksFromF bs f i l = chunksFromF bs g i l := by
  intro n
  induction n using Nat.strong_induction_on with
  | _ n ih =>
    intro l hl f g i hf hg
    cases l with
    | nil =>
      cases f with
      | zero => cases g <;> rfl
      | succ f => cases g with
        | zero => rfl
        | succ g => rfl
    | cons x xs =>
      cases f with
      | zero => simp at hf
      | succ f =>
        cases g with
        | zero => simp at hg
        | succ g =>
          simp only [List.length_cons] at hl hf hg
          have hxs : xs.length < n := by omega
          have hsub : (xs.drop (bs - 1)).length ≤ xs.length :=
            List.Sublist.length_le (List.drop_sublist _ _)
          simp only [chunksFromF]
          rw [ih xs.length hxs (xs.drop (bs - 1)) hsub f g (i + bs)
            (by omega) (by omega)]

theorem chunksFrom_cons (bs i : Nat) (x : α) (xs : List α) :
    chunksFrom bs i (x :: xs)
      = (i, (x :: xs).take bs) :: chunksFrom bs (i + bs) (xs.drop (bs - 1)) := by
  show chunksFromF bs (xs.length + 1) i (x :: xs) = _
  simp only [chunksFromF]
  rw [chunksFromF_fuel bs xs.length (xs.drop (bs - 1))
    (List.Sublist.length_le (List.drop_sublist _ _)) xs.length
    (xs.drop (bs - 1)).length (i + bs)
    (List.Sublist.length_le (List.drop_sublist _ _)) (Nat.le_refl _)]
  rfl

/-- Parameter name param_row_col generated by bulkInsert. -/
def bulkName (row col : Nat) : Str :=
  "param_".data ++ decChars row ++ "_".data ++ decChars col

/-- Inputs bound by one bulkInsert batch starting at absolute index i: for
every row of the batch, one input per column of the batch's first record,
reading the row at that column — undefined when the row lacks the key. -/
def bulkBatchBinds (i : Nat) (b : List Obj) : List (Str × Val) :=
  b.enum.flatMap (fun rj =>
    (objKeys (b.headD [])).enum.map (fun cj =>
      (bulkName (i + rj.1) cj.1, (objGet rj.2 cj.2).getD Val.undef)))

/-- Statement text of one bulkInsert batch: the column list comes from the
batch's first record, and every row contributes one parenthesized
placeholder group. -/
def bulkBatchQuery (table : Str) (i : Nat) (b : List Obj) : Str :=
  let columns := objKeys (b.headD [])
  let placeholders := b.enum.map (fun rj =>
    "(".data
      ++ joinSep ", ".data (columns.enum.map (fun cj => "@".data ++ bulkName (i + rj.1) cj.1))
      ++ ")".data)
  "INSERT INTO [".data ++ table ++ "] ([".data ++ joinSep "], [".data columns
    ++ "]) VALUES ".data ++ joinSep ", ".data placeholders

/-- Model of BulkTools.bulkInsert: per batch, the executed statement (with
the trailing rowcount probe) and the inputs bound on that batch's request. -/
def bulkInsertRun (table : Str) (bs : Nat) (data : List Obj) :
    List (Str × List (Str × Val)) :=
  (chunksFrom bs 0 data).map (fun ib =>
    (bulkBatchQuery table ib.1 ib.2 ++ "; SELECT @@ROWCOUNT as rowsAffected".data,
      bulkBatchBinds ib.1 ib.2))

/-- Names of every parameter bound across a whole bulkInsert call. -/
def bulkInsertAllNames (bs : Nat) (data : List Obj) : List Str :=
  ((chunksFrom bs 0 data).flatMap (fun ib => bulkBatchBinds ib.1 ib.2)).map Prod.fst

/-- Parameter name update_abs_col of the batchUpdate SET loop. -/
def updName (a c : Nat) : Str :=
  "update_".data ++ decChars a ++ "_".data ++ decChars c

/-- Parameter name where_abs_idx of the batchUpdate / batchDelete WHERE
loops. -/
def bwName (a j : Nat) : Str :=
  "where_".data ++ decChars a ++ "_".data ++ decChars j

/-- SET loop of batchUpdate for the entry at absolute index a:
Object.entries in insertion order, one clause and one binding per column. -/
def buildBatchSet (a : Nat) (data : Obj) : List Str × List (Str × Val) :=
  (data.enum.map (fun cj => "[".data ++ cj.2.1 ++ "] = @".data ++ updName a cj.1),
    data.enum.map (fun cj => (updName a cj.1, cj.2.2)))

/-- WHERE loop written identically in batchUpdate and batchDelete, for the
entry at absolute index a: a condition with a defined value is bound behind
a single placeholder whatever its operator; an undefined value emits the
bare column-operator clause with nothing bound. -/
def buildBatchWhereAux (a : Nat) : Nat → List WC → List Str × List (Str × Val)
  | _, [] => ([], [])
  | j, w :: ws =>
    let pn := bwName a j
    let rest := buildBatchWhereAux a (j + 1) ws
    match w.value with
    | .undef => (("[".data ++ w.column ++ "] ".data ++ w.op.str) :: rest.1, rest.2)
    | v =>
      (("[".data ++ w.column ++ "] ".data ++ w.op.str ++ " @".data ++ pn) :: rest.1,
        (pn, v) :: rest.2)

/-- WHERE loop starting at whereIndex 0. -/
def buildBatchWhere (a : Nat) (ws : List WC) : List Str × List (Str × Val) :=
  buildBatchWhereAux a 0 ws

/-- Entry of the batchUpdate updates array: a record of new values and its
WHERE conditions. -/
structure UpdateEntry : Type where
  data : Obj
  whereCs : List WC

/-- One batchUpdate batch starting at absolute index i: the combined
multi-statement text (joined with semicolons and ending in the rowcount
probe) and the inputs bound on the shared request, in assignment order. -/
def batchUpdateBatch (table : Str) (i : Nat) (b : List UpdateEntry) :
    Str × List (Str × Val) :=
  let per := b.enum.map (fun ej =>
    let a := i + ej.1
    let sres := buildBatchSet a ej.2.data
    let wres := buildBatchWhere a ej.2.whereCs
    ("UPDATE [".data ++ table ++ "] SET ".data ++ joinSep ", ".data sres.1
        ++ " WHERE ".data ++ joinSep " AND ".data wres.1,
      sres.2 ++ wres.2))
  (joinSep "; ".data (per.map Prod.fst) ++ "; SELECT @@ROWCOUNT as rowsAffected".data,
    per.flatMap Prod.snd)

/-- Model of BulkTools.batchUpdate: the per-batch combined statements and
bound inputs. -/
def batchUpdateRun (table : Str) (bs : Nat) (ups : List UpdateEntry) :
    List (Str × List (Str × Val)) :=
  (chunksFrom bs 0 ups).map (fun ib => batchUpdateBatch table ib.1 ib.2)

/-- Names of every parameter bound across a whole batchUpdate call. -/
def batchUpdateAllNames (bs : Nat) (ups : List UpdateEntry) : List Str :=
  ((chunksFrom bs 0 ups).flatMap (fun ib =>
    ib.2.enum.flatMap (fun ej =>
      (buildBatchSet (ib.1 + ej.1) ej.2.data).2
        ++ (buildBatchWhere (ib.1 + ej.1) ej.2.whereCs).2))).map Prod.fst

/-- One batchDelete batch starting at absolute index i. -/
def batchDeleteBatch (table : Str) (i : Nat) (b : List (List WC)) :
    Str × List (Str × Val) :=
  let per := b.enum.map (fun ej =>
    let wres := buildBatchWhere (i + ej.1) ej.2
    ("DELETE FROM [".data ++ table ++ "] WHERE ".data ++ joinSep " AND ".data wres.1,
      wres.2))
  (joinSep "; ".data (per.map Prod.fst) ++ "; SELECT @@ROWCOUNT as rowsAffected".data,
    per.flatMap Prod.snd)

/-- Model of BulkTools.batchDelete. -/
def batchDeleteRun (table : Str) (bs : Nat) (conds : List (List WC)) :
    List (Str × List (Str × Val)) :=
  (chunksFrom bs 0 conds).map (fun ib => batchDeleteBatch table ib.1 ib.2)

/-- Names of every parameter bound across a whole batchDelete call. -/
def batchDeleteAllNames (bs : Nat) (conds : List (List WC)) : List Str :=
  ((chunksFrom bs 0 conds).flatMap (fun ib =>
    ib.2.enum.flatMap (fun ej =>
      (buildBatchWhere (ib.1 + ej.1) ej.2).2))).map Prod.fst

/-- Field checks of the zod WhereConditionSchema: the column must be a
nonempty string (the operator enumeration and the optional untyped value
are carried by the types of the model). -/
def validWC (w : WC) : Bool := 1 ≤ w.column.length

/-- Validation performed by UpdateToolSchema.parse: nonempty table name,
record with at least one column, at least one WHERE condition, each
condition well-formed. -/
def parseUpdateTool (table : Str) (data : Obj) (whereCs : List WC) : Bool :=
  (1 ≤ table.length : Bool) && (0 < data.length : Bool)
    && (1 ≤ whereCs.length : Bool) && whereCs.all validWC

/-- Validation performed by DeleteToolSchema.parse: nonempty table name and
at least one well-formed WHERE condition. -/
def parseDeleteTool (table : Str) (whereCs : List WC) : Bool :=
  (1 ≤ table.length : Bool) && (1 ≤ whereCs.length : Bool) && whereCs.all validWC

/-- Handler of the sql_update tool: the schema parse throws on invalid
input, which the server surfaces as an error response without building or
executing anything (none); otherwise executeUpdate builds the statement
through buildUpdateQuery and runs it. -/
def sqlUpdateTool (table : Str) (data : Obj) (whereCs : List WC) :
    Option (Str × Obj) :=
  if parseUpdateTool table data whereCs then some (buildUpdateQuery table data whereCs)
  else none

/-- Handler of the sql_delete tool, analogously. -/
def sqlDeleteTool (table : Str) (whereCs : List WC) : Option (Str × Obj) :=
  if parseDeleteTool table whereCs then some (buildDeleteQuery table whereCs)
  else none

theorem map_fst_zip_eq {names : List Str} {vs : List Val}
    (h : names.length = vs.length) : (names.zip vs).map Prod.fst = names :=
  List.map_fst_zip names vs (le_of_eq h)

theorem condStep_names_mem {pn : Str} {w : WC} {n : Str}
    (h : n ∈ (condStep pn w).2.map Prod.fst) :
    n = pn ∨ ∃ i, n = pn ++ "_".data ++ decChars i := by
  cases w with
  | mk col op v =>
    cases op <;> simp only [condStep] at h
    case isin | notin =>
      cases v with
      | arr vs =>
        simp only at h
        rw [map_fst_zip_eq (by simp)] at h
        simp only [List.mem_map, List.mem_range] at h
        obtain ⟨i, _, rfl⟩ := h
        exact Or.inr ⟨i, rfl⟩
      | undef => simp at h
      | prim s => simp at h
    all_goals simp at h
    all_goals exact Or.inl h

theorem buildConds_names_mem {pfx : Str} {c : Nat} {ws : List WC} {n : Str}
    (h : n ∈ (buildConds pfx c ws).2.map Prod.fst) :
    ∃ cn, c ≤ cn ∧ cn < c + ws.length ∧
      (n = pfx ++ decChars cn ∨ ∃ i, n = pfx ++ decChars cn ++ "_".data ++ decChars i) := by
  induction ws generalizing c with
  | nil => simp [buildConds] at h
  | cons w ws ih =>
    simp only [buildConds, List.map_append, List.mem_append] at h
    rcases h with h | h
    · refine ⟨c, Nat.le_refl c, by simp, ?_⟩
      rcases condStep_names_mem h with h | ⟨i, h⟩
      · exact Or.inl h
      · exact Or.inr ⟨i, by rw [h, List.append_assoc]⟩
    · obtain ⟨cn, h1, h2, h3⟩ := ih h
      refine ⟨cn, by omega, by simp; omega, ?_⟩
      rcases h3 with h3 | ⟨i, h3⟩
      · exact Or.inl h3
      · exact Or.inr ⟨i, h3⟩

theorem buildConds_names_pfx {pfx : Str} {c : Nat} {ws : List WC} {n : Str}
    (h : n ∈ (buildConds pfx c ws).2.map Prod.fst) : pfx <+: n := by
  obtain ⟨cn, _, _, h3⟩ := buildConds_names_mem h
  rcases h3 with rfl | ⟨i, rfl⟩
  · exact List.prefix_append _ _
  · rw [List.append_assoc, List.append_assoc]
    exact List.prefix_append _ _

/-- C6 (amended): the builders do not report malformed membership
predicates.  A membership predicate whose value is not a sequence
(including an absent value) is silently dropped: it contributes no clause
text and no parameter, though it still consumes a counter value, and the
builder goes on to return a complete (query, inputs) pair.  A membership
predicate with an empty sequence is not dropped: it emits the clause
[col] OP () with zero placeholders and zero parameters. -/
theorem claim_c6_amended :
    (∀ (pfx : Str) (c : Nat) (col : Str) (op : Op) (v : Val) (ws : List WC),
      (op = .isin ∨ op = .notin) → v.shape = none →
      buildConds pfx c (⟨col, op, v⟩ :: ws) = buildConds pfx (c + 1) ws)
  ∧ (∀ (pfx : Str) (c : Nat) (col : Str) (op : Op) (ws : List WC),
      (op = .isin ∨ op = .notin) →
      buildConds pfx c (⟨col, op, .arr []⟩ :: ws)
        = (("[".data ++ col ++ "] ".data ++ op.str ++ " ()".data)
              :: (buildConds pfx (c + 1) ws).1,
            (buildConds pfx (c + 1) ws).2)) := by
  constructor
  · rintro pfx c col op v ws (rfl | rfl) hv <;>
      cases v <;> simp [Val.shape] at hv <;> simp [buildConds, condStep]
  · rintro pfx c col op ws (rfl | rfl) <;>
      simp [buildConds, condStep, joinSep, Op.str]

/-- C6 (counterexample to the claim as stated): for a membership predicate
whose value is not a sequence the query constructor reports nothing and
still returns a statement: the concrete SELECT description over table t
with the single filter c IN "x" yields the complete pair
(SELECT * FROM [t] WHERE , empty map) — a (query, inputs) pair IS produced,
with the predicate silently dropped and a dangling WHERE keyword. -/
theorem claim_c6_counterexample :
    buildSelectQuery ⟨"t".data, ["*".data],
        [⟨"c".data, .isin, .prim "x".data⟩], [], [], none, none⟩
      = ("SELECT * FROM [t] WHERE ".data, []) := by
  rfl

/-- C7 (amended): the SET-clause parameter names of buildUpdateQuery are the
record keys and the WHERE-clause names all come from the where_param pool,
so the two sets are disjoint provided no record key itself starts with
where_param; the parameter map is the record extended by the WHERE
assignments. -/
theorem claim_c7_amended (table : Str) (data : Obj) (ws : List WC)
    (h : ∀ k ∈ objKeys data, ¬ ("where_param".data : Str) <+: k) :
    List.Disjoint (objKeys data)
        ((buildConds "where_param".data 1000 ws).2.map Prod.fst)
      ∧ (buildUpdateQuery table data ws).2
          = objFold data (buildConds "where_param".data 1000 ws).2 := by
  constructor
  · intro k hk hmem
    exact h k hk (buildConds_names_pfx hmem)
  · rfl

/-- C7 (witness). -/
theorem claim_c7_witness :
    List.Disjoint (objKeys [("name".data, Val.prim "Ann".data)])
        ((buildConds "where_param".data 1000
            [⟨"id".data, .eq, .prim "42".data⟩]).2.map Prod.fst)
      ∧ (buildUpdateQuery "Users".data [("name".data, Val.prim "Ann".data)]
            [⟨"id".data, .eq, .prim "42".data⟩]).2
          = objFold [("name".data, Val.prim "Ann".data)]
              (buildConds "where_param".data 1000
                [⟨"id".data, .eq, .prim "42".data⟩]).2 :=
  claim_c7_amended "Users".data [("name".data, Val.prim "Ann".data)]
    [⟨"id".data, .eq, .prim "42".data⟩]
    (by
      intro k hk
      simp only [objKeys, List.map_cons, List.map_nil, List.mem_singleton] at hk
      subst hk
      decide)

/-- C7 (counterexample to the claim as stated): the name pools are not
disjoint for every record key set — a record whose key is the literal
string where_param1000 collides with the first generated WHERE parameter
name. -/
theorem claim_c7_counterexample :
    ¬ List.Disjoint (objKeys [("where_param1000".data, Val.prim "v".data)])
        ((buildConds "where_param".data 1000
            [⟨"id".data, .eq, .prim "7".data⟩]).2.map Prod.fst) := by
  intro h
  have hk : "where_param1000".data
      ∈ objKeys [("where_param1000".data, Val.prim "v".data)] := by
    simp [objKeys]
  have hlist : (buildConds "where_param".data 1000
        [⟨"id".data, .eq, .prim "7".data⟩]).2.map Prod.fst
      = ["where_param".data ++ decChars 1000] := by
    simp [buildConds, condStep]
  have heq : ("where_param1000".data : Str) = "where_param".data ++ decChars 1000 := by
    decide
  exact h hk (by rw [hlist, ← heq]; exact List.mem_singleton_self _)

/-- C6 (witness). -/
theorem claim_c6_witness :
    buildConds "param".data 1 [⟨"c".data, .isin, Val.prim "x".data⟩]
        = buildConds "param".data (1 + 1) []
  ∧ buildConds "param".data 1 [⟨"c".data, .notin, Val.arr []⟩]
      = (("[".data ++ "c".data ++ "] ".data ++ Op.notin.str ++ " ()".data)
            :: (buildConds "param".data (1 + 1) []).1,
          (buildConds "param".data (1 + 1) []).2) :=
  ⟨claim_c6_amended.1 "param".data 1 "c".data .isin (Val.prim "x".data) []
      (Or.inl rfl) rfl,
    claim_c6_amended.2 "param".data 1 "c".data .notin [] (Or.inr rfl)⟩

/-- C9: a sql_update or sql_delete request with an empty predicate sequence
— or an empty table name, or for update an empty record — fails the zod
schema parse, so the handler reports an error and neither builds nor
executes any statement; and whenever those handlers do produce a statement,
it carries a WHERE clause. -/
theorem claim_c9 :
    (∀ (t : Str) (d : Obj) (ws : List WC), ws = [] ∨ t = [] ∨ d = [] →
      sqlUpdateTool t d ws = none)
  ∧ (∀ (t : Str) (ws : List WC), ws = [] ∨ t = [] →
      sqlDeleteTool t ws = none)
  ∧ (∀ (t : Str) (d : Obj) (ws : List WC) (q : Str) (m : Obj),
      sqlUpdateTool t d ws = some (q, m) → isSub " WHERE ".data q)
  ∧ (∀ (t : Str) (ws : List WC) (q : Str) (m : Obj),
      sqlDeleteTool t ws = some (q, m) → isSub " WHERE ".data q) := by
  refine ⟨?_, ?_, ?_, ?_⟩
  · rintro t d ws (rfl | rfl | rfl) <;> simp [sqlUpdateTool, parseUpdateTool]
  · rintro t ws (rfl | rfl) <;> simp [sqlDeleteTool, parseDeleteTool]
  · intro t d ws q m h
    rw [sqlUpdateTool] at h
    split at h
    case isTrue hp =>
      have hws : 0 < ws.length := by
        rw [parseUpdateTool] at hp
        simp only [Bool.and_eq_true, decide_eq_true_eq] at hp
        omega
      have hq : q = (buildUpdateQuery t d ws).1 := by
        injection h with h2
        rw [h2]
      rw [hq]
      simp only [buildUpdateQuery, if_pos hws]
      refine ⟨"UPDATE [".data ++ t ++ "] SET ".data
        ++ joinSep ", ".data ((objKeys d).map
          (fun col => "[".data ++ col ++ "] = @".data ++ col)),
        joinSep " AND ".data (buildConds "where_param".data 1000 ws).1, by simp⟩
    case isFalse => cases h
  · intro t ws q m h
    rw [sqlDeleteTool] at h
    split at h
    case isTrue hp =>
      have hws : 0 < ws.length := by
        rw [parseDeleteTool] at hp
        simp only [Bool.and_eq_true, decide_eq_true_eq] at hp
        omega
      have hq : q = (buildDeleteQuery t ws).1 := by
        injection h with h2
        rw [h2]
      rw [hq]
      simp only [buildDeleteQuery, if_pos hws]
      refine ⟨"DELETE FROM [".data ++ t ++ "]".data,
        joinSep " AND ".data (buildConds "param".data 1 ws).1, by simp⟩
    case isFalse => cases h

/-- C9 (witness). -/
theorem claim_c9_witness :
    sqlUpdateTool "t".data [("a".data, Val.prim "1".data)] [] = none
  ∧ sqlDeleteTool "t".data [] = none
  ∧ isSub " WHERE ".data
      (sqlUpdateTool "t".data [("a".data, Val.prim "1".data)]
          [⟨"id".data, .eq, .prim "7".data⟩] |>.getD ([], [])).1
  ∧ isSub " WHERE ".data
      (sqlDeleteTool "t".data [⟨"id".data, .eq, .prim "7".data⟩] |>.getD ([], [])).1 :=
  ⟨claim_c9.1 "t".data [("a".data, Val.prim "1".data)] [] (Or.inl rfl),
    claim_c9.2.1 "t".data [] (Or.inl rfl),
    claim_c9.2.2.1 "t".data [("a".data, Val.prim "1".data)]
      [⟨"id".data, .eq, .prim "7".data⟩] _ _ rfl,
    claim_c9.2.2.2 "t".data [⟨"id".data, .eq, .prim "7".data⟩] _ _ rfl⟩

theorem not_isSub_of_idxOf?_none {pat s : Str} (h : idxOf? pat s = none) :
    ¬ isSub pat s := by
  induction s with
  | nil =>
    rintro ⟨a, b, hab⟩
    have ha : a = [] := by
      cases a with
      | nil => rfl
      | cons x xs => simp at hab
    subst ha
    have hb : pat = [] := by
      cases pat with
      | nil => rfl
      | cons x xs => simp at hab
    subst hb
    simp [idxOf?, List.isPrefixOf] at h
  | cons c t ih =>
    simp only [idxOf?] at h
    split at h
    · cases h
    case isFalse hpre =>
      have hrec : idxOf? pat t = none := by
        cases hx : idxOf? pat t with
        | none => rfl
        | some v => rw [hx] at h; cases h
      rintro ⟨a, b, hab⟩
      cases a with
      | nil =>
        simp only [List.nil_append] at hab
        exact hpre (by
          rw [List.isPrefixOf_iff_prefix]
          exact ⟨b, hab.symm⟩)
      | cons x a2 =>
        simp only [List.cons_append, List.cons.injEq] at hab
        exact ih hrec ⟨a2, b, hab.2⟩

/-- Text fragment one join contributes to the SELECT statement. -/
def joinFrag (j : JoinC) : Str :=
  " ".data ++ j.kind.str ++ " JOIN [".data ++ j.table ++ "] ON ".data ++ j.onTxt

theorem joins_foldl (js : List JoinC) (init : Str) :
    js.foldl (fun q j => q ++ " ".data ++ j.kind.str ++ " JOIN [".data ++ j.table
        ++ "] ON ".data ++ j.onTxt) init
      = init ++ (js.map joinFrag).flatten := by
  induction js generalizing init with
  | nil => simp
  | cons j js ih =>
    rw [List.foldl_cons, ih, List.map_cons, List.flatten_cons]
    simp [joinFrag, List.append_assoc]

theorem if_append (c : Prop) [Decidable c] (x y : Str) :
    (if c then x ++ y else x) = x ++ (if c then y else []) := by
  split <;> simp

/-- Statement text after the FROM clause of a SELECT: joins, WHERE block and
ORDER BY block. -/
def selTail (p : QueryParams) : Str :=
  (p.joins.map joinFrag).flatten
    ++ (if p.whereCs.length > 0
        then " WHERE ".data ++ joinSep " AND ".data (buildConds "param".data 1 p.whereCs).1
        else [])
    ++ (if p.orderBy.length > 0
        then " ORDER BY ".data ++ joinSep ", ".data
          (p.orderBy.map (fun o => "[".data ++ o.1 ++ "] ".data ++ o.2.str))
        else [])

theorem buildSelect_no_pagination (p : QueryParams) (hl : truthy p.limit = false) :
    buildSelectQuery p
      = ("SELECT ".data ++ joinSep ", ".data p.columns
            ++ " FROM [".data ++ p.table ++ "]".data ++ selTail p,
          objFold [] (buildConds "param".data 1 p.whereCs).2) := by
  by_cases hw : p.whereCs.length > 0 <;> by_cases ho : p.orderBy.length > 0 <;>
    simp only [buildSelectQuery, joins_foldl, hl, Bool.false_eq_true, if_false,
      if_true, hw, ho, selTail] <;>
    simp [List.append_assoc]

theorem top_splice_drop (A rest2 : Str) (hsub : ¬ isSub " FROM".data A) :
    (A ++ (" FROM ".data ++ rest2)).drop
        (match idxOf? " FROM".data (A ++ (" FROM ".data ++ rest2)) with
          | some i => i + 6
          | none => 5)
      = rest2 := by
  rw [idxOf?_from_splice A rest2 hsub]
  show (A ++ (" FROM ".data ++ rest2)).drop (A.length + 6) = rest2
  have h1 : A ++ (" FROM ".data ++ rest2) = (A ++ " FROM ".data) ++ rest2 := by
    rw [List.append_assoc]
  have h2 : A.length + 6 = (A ++ " FROM ".data).length := by simp
  rw [h1, h2, List.drop_left]

theorem buildSelect_top_raw (p : QueryParams) (l : Nat) (hl : p.limit = some l)
    (hl0 : l ≠ 0) (hoffF : truthy p.offset = false) :
    buildSelectQuery p
      = ("SELECT TOP ".data ++ decChars l ++ " ".data ++ joinSep ", ".data p.columns
            ++ " FROM [".data ++ p.table ++ "]".data
            ++ (buildSelectQuery {p with limit := none, offset := none}).1.drop
              (match idxOf? " FROM".data
                  (buildSelectQuery {p with limit := none, offset := none}).1 with
                | some i => i + 6
                | none => 5),
          (buildSelectQuery {p with limit := none, offset := none}).2) := by
  have htl : truthy p.limit = true := by rw [hl]; simp [truthy, hl0]
  have htl2 : truthy (some l) = true := by simp [truthy, hl0]
  have hbase : truthy ({p with limit := none, offset := none} : QueryParams).limit
      = false := rfl
  simp only [buildSelectQuery, htl, htl2, hoffF, hbase, hl, if_true,
    Bool.false_eq_true, if_false, Option.getD_some]

/-- C3 (amended): pagination behavior of buildSelectQuery under JavaScript
truthiness.  With a truthy (present, nonzero) limit and a truthy offset,
the OFFSET/FETCH clause is appended to the end of the otherwise unchanged
statement — in particular after the ORDER BY clause when one is present —
and the parameter map is untouched.  With a truthy limit and a falsy
offset (absent or zero), the statement is rewritten to the TOP form by
splicing the original text at indexOf( FROM) + 6: because the splice point
sits just after FROM and the new prefix already ends in the bracketed
table name, the table reference appears twice in a row, the second
occurrence reading as a self-alias, followed by the original join, WHERE
and ORDER BY text.  The splice lands at the structural FROM provided the
projection text does not itself contain the  FROM fragment. -/
theorem claim_c3_amended :
    (∀ (p : QueryParams) (l o : Nat), p.limit = some l → p.offset = some o →
      l ≠ 0 → o ≠ 0 →
      buildSelectQuery p
        = ((buildSelectQuery {p with limit := none, offset := none}).1
              ++ " OFFSET ".data ++ decChars o ++ " ROWS FETCH NEXT ".data
              ++ decChars l ++ " ROWS ONLY".data,
            (buildSelectQuery {p with limit := none, offset := none}).2))
  ∧ (∀ (p : QueryParams) (l : Nat), p.limit = some l → l ≠ 0 →
      p.offset = none ∨ p.offset = some 0 →
      ¬ isSub " FROM".data ("SELECT ".data ++ joinSep ", ".data p.columns) →
      buildSelectQuery p
        = ("SELECT TOP ".data ++ decChars l ++ " ".data ++ joinSep ", ".data p.columns
              ++ " FROM [".data ++ p.table ++ "]".data
              ++ ("[".data ++ p.table ++ "]".data ++ selTail p),
            objFold [] (buildConds "param".data 1 p.whereCs).2)) := by
  constructor
  · intro p l o hl ho hl0 ho0
    have htl2 : truthy (some l) = true := by simp [truthy, hl0]
    have hto2 : truthy (some o) = true := by simp [truthy, ho0]
    rw [buildSelect_no_pagination {p with limit := none, offset := none} rfl]
    by_cases hw : p.whereCs.length > 0 <;> by_cases hob : p.orderBy.length > 0 <;>
      simp only [buildSelectQuery, joins_foldl, htl2, hto2, hl, ho, hw, hob, if_true,
        Bool.false_eq_true, if_false, Option.getD_some, selTail] <;>
      simp [List.append_assoc]
  · intro p l hl hl0 hoff hsub
    have htoF : truthy p.offset = false := by
      rcases hoff with h | h <;> rw [h] <;> rfl
    rw [buildSelect_top_raw p l hl hl0 htoF,
      buildSelect_no_pagination {p with limit := none, offset := none} rfl]
    have hgroup : "SELECT ".data ++ joinSep ", ".data p.columns
          ++ " FROM [".data ++ p.table ++ "]".data ++ selTail p
        = ("SELECT ".data ++ joinSep ", ".data p.columns)
            ++ (" FROM ".data ++ ("[".data ++ p.table ++ "]".data ++ selTail p)) := by
      simp [List.append_assoc]
    show ("SELECT TOP ".data ++ decChars l ++ " ".data ++ joinSep ", ".data p.columns
          ++ " FROM [".data ++ p.table ++ "]".data
          ++ ("SELECT ".data ++ joinSep ", ".data p.columns
              ++ " FROM [".data ++ p.table ++ "]".data ++ selTail p).drop
            (match idxOf? " FROM".data
                ("SELECT ".data ++ joinSep ", ".data p.columns
                  ++ " FROM [".data ++ p.table ++ "]".data ++ selTail p) with
              | some i => i + 6
              | none => 5),
        objFold [] (buildConds "param".data 1 p.whereCs).2) = _
    rw [hgroup, top_splice_drop _ _ hsub]

/-- C3 (counterexample to the claim as stated): a description with both a
limit (10) and an offset (0) does not get the OFFSET/FETCH form — the
JavaScript truthiness test sends a zero offset down the TOP rewrite, whose
output here is SELECT TOP 10 * FROM [t][t], with no OFFSET clause and with
the bracketed table name duplicated by the splice. -/
theorem claim_c3_counterexample :
    buildSelectQuery ⟨"t".data, ["*".data], [], [], [], some 10, some 0⟩
      = ("SELECT TOP 10 * FROM [t][t]".data, [])
  ∧ ¬ isSub " OFFSET ".data "SELECT TOP 10 * FROM [t][t]".data :=
  ⟨rfl, not_isSub_of_idxOf?_none rfl⟩

/-- C3 (witness). -/
theorem claim_c3_witness :
    (buildSelectQuery ⟨"t".data, ["*".data], [], [], [("n".data, Dir.asc)],
        some 10, some 20⟩
      = ((buildSelectQuery ⟨"t".data, ["*".data], [], [], [("n".data, Dir.asc)],
            none, none⟩).1
            ++ " OFFSET ".data ++ decChars 20 ++ " ROWS FETCH NEXT ".data
            ++ decChars 10 ++ " ROWS ONLY".data,
          (buildSelectQuery ⟨"t".data, ["*".data], [], [], [("n".data, Dir.asc)],
            none, none⟩).2))
  ∧ (buildSelectQuery ⟨"t".data, ["*".data], [], [], [], some 10, none⟩
      = ("SELECT TOP ".data ++ decChars 10 ++ " ".data
            ++ joinSep ", ".data ["*".data]
            ++ " FROM [".data ++ "t".data ++ "]".data
            ++ ("[".data ++ "t".data ++ "]".data
                ++ selTail ⟨"t".data, ["*".data], [], [], [], some 10, none⟩),
          objFold [] (buildConds "param".data 1 []).2)) :=
  ⟨claim_c3_amended.1 ⟨"t".data, ["*".data], [], [], [("n".data, Dir.asc)],
      some 10, some 20⟩ 10 20 rfl rfl (by decide) (by decide),
    claim_c3_amended.2 ⟨"t".data, ["*".data], [], [], [], some 10, none⟩ 10
      rfl (by decide) (Or.inl rfl) (not_isSub_of_idxOf?_none rfl)⟩

/-- Two filter predicates agree on everything the emitted text can depend
on: column, operator, and the shape of the value (array-ness and length) —
the scalar content is free to differ. -/
def condShapeEq (w w2 : WC) : Prop :=
  w.column = w2.column ∧ w.op = w2.op ∧ w.value.shape = w2.value.shape

theorem condStep_congr1 {w w2 : WC} (h : condShapeEq w w2) (pn : Str) :
    (condStep pn w).1 = (condStep pn w2).1 := by
  obtain ⟨col, op, v⟩ := w
  obtain ⟨col2, op2, v2⟩ := w2
  obtain ⟨hcol, hop, hsh⟩ := h
  dsimp at hcol hop hsh
  subst hcol
  subst hop
  cases op <;> try rfl
  case isin | notin =>
    cases v <;> cases v2 <;> simp [Val.shape] at hsh <;> simp [condStep]
    all_goals rw [hsh]

theorem buildConds_congr1 {ws ws2 : List WC}
    (h : List.Forall₂ condShapeEq ws ws2) :
    ∀ (pfx : Str) (c : Nat), (buildConds pfx c ws).1 = (buildConds pfx c ws2).1 := by
  induction h with
  | nil => intro pfx c; rfl
  | cons hw hrest ih =>
    intro pfx c
    simp only [buildConds]
    rw [condStep_congr1 hw, ih pfx (c + 1)]

/-- C1: value noninterference of the emitted SQL text.  For each of the four
builders, two descriptions that differ only in the scalar values of their
filter predicates and records — same structural parts, same operators, same
record keys, and same value shapes (array-ness and length, which govern the
membership expansion) — produce identical SQL text: caller-supplied values
reach the output only through the parameter map. -/
theorem claim_c1_value_noninterference :
    (∀ p q : QueryParams, p.table = q.table → p.columns = q.columns →
      p.joins = q.joins → p.orderBy = q.orderBy → p.limit = q.limit →
      p.offset = q.offset → List.Forall₂ condShapeEq p.whereCs q.whereCs →
      (buildSelectQuery p).1 = (buildSelectQuery q).1)
  ∧ (∀ (t : Str) (d d2 : Obj), objKeys d = objKeys d2 →
      (buildInsertQuery t d).1 = (buildInsertQuery t d2).1)
  ∧ (∀ (t : Str) (d d2 : Obj) (ws ws2 : List WC), objKeys d = objKeys d2 →
      List.Forall₂ condShapeEq ws ws2 →
      (buildUpdateQuery t d ws).1 = (buildUpdateQuery t d2 ws2).1)
  ∧ (∀ (t : Str) (ws ws2 : List WC), List.Forall₂ condShapeEq ws ws2 →
      (buildDeleteQuery t ws).1 = (buildDeleteQuery t ws2).1) := by
  refine ⟨?_, ?_, ?_, ?_⟩
  · intro p q ht hc hj ho hl hoff hws
    have hlen : p.whereCs.length = q.whereCs.length := List.Forall₂.length_eq hws
    have hconds := buildConds_congr1 hws "param".data 1
    simp only [buildSelectQuery]
    rw [ht, hc, hj, ho, hl, hoff, hconds, hlen]
  · intro t d d2 hk
    simp only [buildInsertQuery]
    rw [hk]
  · intro t d d2 ws ws2 hk hws
    have hlen : ws.length = ws2.length := List.Forall₂.length_eq hws
    have hconds := buildConds_congr1 hws "where_param".data 1000
    simp only [buildUpdateQuery]
    rw [hk, hconds, hlen]
  · intro t ws ws2 hws
    have hlen : ws.length = ws2.length := List.Forall₂.length_eq hws
    have hconds := buildConds_congr1 hws "param".data 1
    simp only [buildDeleteQuery]
    rw [hconds, hlen]

/-- C1 (witness): concrete descriptions differing only in scalar values —
including one value full of SQL metacharacters — yield identical SQL
text. -/
theorem claim_c1_witness :
    (buildSelectQuery ⟨"t".data, ["*".data],
        [⟨"a".data, .eq, .prim "x'; DROP TABLE t;--".data⟩,
          ⟨"s".data, .isin, .arr [.prim "A".data, .prim "B".data]⟩],
        [], [], some 5, none⟩).1
      = (buildSelectQuery ⟨"t".data, ["*".data],
          [⟨"a".data, .eq, .prim "y".data⟩,
            ⟨"s".data, .isin, .arr [.prim "C".data, .prim "D".data]⟩],
          [], [], some 5, none⟩).1
  ∧ (buildInsertQuery "t".data [("a".data, Val.prim "1".data)]).1
      = (buildInsertQuery "t".data [("a".data, Val.prim "2".data)]).1
  ∧ (buildUpdateQuery "t".data [("a".data, Val.prim "1".data)]
        [⟨"id".data, .eq, .prim "7".data⟩]).1
      = (buildUpdateQuery "t".data [("a".data, Val.prim "2".data)]
          [⟨"id".data, .eq, .prim "8".data⟩]).1
  ∧ (buildDeleteQuery "t".data [⟨"id".data, .eq, .prim "7".data⟩]).1
      = (buildDeleteQuery "t".data [⟨"id".data, .eq, .prim "8".data⟩]).1 :=
  ⟨claim_c1_value_noninterference.1 _ _ rfl rfl rfl rfl rfl rfl
      (by
        refine List.Forall₂.cons ⟨rfl, rfl, rfl⟩ ?_
        exact List.Forall₂.cons ⟨rfl, rfl, rfl⟩ List.Forall₂.nil),
    claim_c1_value_noninterference.2.1 "t".data _ _ rfl,
    claim_c1_value_noninterference.2.2.1 "t".data _ _ _ _ rfl
      (List.Forall₂.cons ⟨rfl, rfl, rfl⟩ List.Forall₂.nil),
    claim_c1_value_noninterference.2.2.2 "t".data _ _
      (List.Forall₂.cons ⟨rfl, rfl, rfl⟩ List.Forall₂.nil)⟩

theorem headNotDigit_underscore (l : Str) : headNotDigit ("_".data ++ l) = true := rfl

theorem inName_injective (pn : Str) :
    Function.Injective (fun i => pn ++ "_".data ++ decChars i) := by
  intro i j h
  simp only at h
  exact decChars_inj (List.append_cancel_left h)

theorem condStep_names_nodup (pn : Str) (w : WC) :
    ((condStep pn w).2.map Prod.fst).Nodup := by
  obtain ⟨col, op, v⟩ := w
  cases op <;> simp [condStep]
  case isin | notin =>
    cases v <;> simp
    case arr vs =>
      rw [map_fst_zip_eq (by simp)]
      refine (List.nodup_range _).map ?_
      intro i j h
      simp only at h
      have h2 : decChars i = decChars j := by
        have h3 := List.append_cancel_left h
        injection h3
      exact decChars_inj h2

theorem gen_name_form (pfx : Str) (c : Nat) (n : Str)
    (h : n = pfx ++ decChars c ∨ ∃ i, n = pfx ++ decChars c ++ "_".data ++ decChars i) :
    ∃ t, headNotDigit t = true ∧ n = pfx ++ (decChars c ++ t) := by
  rcases h with rfl | ⟨i, rfl⟩
  · exact ⟨[], rfl, by simp⟩
  · exact ⟨"_".data ++ decChars i, headNotDigit_underscore _, by simp [List.append_assoc]⟩

theorem gen_name_counter_eq {pfx : Str} {c c2 : Nat} {n : Str}
    (h1 : n = pfx ++ decChars c ∨ ∃ i, n = pfx ++ decChars c ++ "_".data ++ decChars i)
    (h2 : n = pfx ++ decChars c2 ∨ ∃ i, n = pfx ++ decChars c2 ++ "_".data ++ decChars i) :
    c = c2 := by
  obtain ⟨t, ht, hn⟩ := gen_name_form pfx c n h1
  obtain ⟨t2, ht2, hn2⟩ := gen_name_form pfx c2 n h2
  have h3 : pfx ++ (decChars c ++ t) = pfx ++ (decChars c2 ++ t2) := by
    rw [← hn, ← hn2]
  exact (digitRun_inj ht ht2 (List.append_cancel_left h3)).1

theorem condStep_names_mem_at {pn : Str} {w : WC} {n : Str}
    (h : n ∈ (condStep pn w).2.map Prod.fst) (pfx : Str) (c : Nat)
    (hpn : pn = pfx ++ decChars c) :
    n = pfx ++ decChars c ∨ ∃ i, n = pfx ++ decChars c ++ "_".data ++ decChars i := by
  subst hpn
  exact condStep_names_mem h

theorem buildConds_names_nodup (pfx : Str) (c : Nat) (ws : List WC) :
    ((buildConds pfx c ws).2.map Prod.fst).Nodup := by
  induction ws generalizing c with
  | nil => simp [buildConds]
  | cons w ws ih =>
    simp only [buildConds, List.map_append]
    rw [List.nodup_append]
    refine ⟨condStep_names_nodup _ _, ih (c + 1), ?_⟩
    intro n hn hn2
    have h1 := condStep_names_mem_at hn pfx c rfl
    obtain ⟨cn, hcn1, _, h2⟩ := buildConds_names_mem hn2
    have := gen_name_counter_eq h1 h2
    omega

theorem buildConds_in_clause (pfx : Str) (start : Nat) (ws : List WC) (j : Nat)
    (hj : j < ws.length) {col : Str} {op : Op} {vs : List Val}
    (hcond : ws[j] = ⟨col, op, .arr vs⟩) (hop : op = .isin ∨ op = .notin) :
    ("[".data ++ col ++ "] ".data ++ op.str ++ " (".data
        ++ joinSep ", ".data (((List.range vs.length).map
            (fun i => pfx ++ decChars (start + j) ++ "_".data ++ decChars i)).map
          (fun n => "@".data ++ n)) ++ ")".data)
      ∈ (buildConds pfx start ws).1
    ∧ ∀ i, (hi : i < vs.length) →
        (pfx ++ decChars (start + j) ++ "_".data ++ decChars i, vs[i])
          ∈ (buildConds pfx start ws).2 := by
  induction ws generalizing start j with
  | nil => simp at hj
  | cons w ws ih =>
    cases j with
    | zero =>
      rw [List.getElem_cons_zero] at hcond
      subst hcond
      constructor
      · simp only [buildConds, Nat.add_zero]
        rcases hop with rfl | rfl <;>
          simp [condStep, List.append_assoc]
      · intro i hi
        simp only [buildConds, Nat.add_zero]
        apply List.mem_append_left
        have hzip : ((List.range vs.length).map
              (fun i => pfx ++ decChars start ++ "_".data ++ decChars i)).zip vs
            ∈ [((List.range vs.length).map
              (fun i => pfx ++ decChars start ++ "_".data ++ decChars i)).zip vs] :=
          List.mem_singleton_self _
        have hlen : ((List.range vs.length).map
            (fun i => pfx ++ decChars start ++ "_".data ++ decChars i)).length
              = vs.length := by simp
        have hib : i < (((List.range vs.length).map
            (fun i => pfx ++ decChars start ++ "_".data ++ decChars i)).zip vs).length := by
          simp [hlen]
          omega
        have hget : (((List.range vs.length).map
              (fun i => pfx ++ decChars start ++ "_".data ++ decChars i)).zip vs).get
                ⟨i, hib⟩
            = (pfx ++ decChars start ++ "_".data ++ decChars i, vs[i]) := by
          simp only [List.get_eq_getElem]
          rw [List.getElem_zip]
          congr 1
          rw [List.getElem_map, List.getElem_range]
        have hstep : (condStep (pfx ++ decChars start) ⟨col, op, .arr vs⟩).2
            = ((List.range vs.length).map
                (fun i => pfx ++ decChars start ++ "_".data ++ decChars i)).zip vs := by
          rcases hop with rfl | rfl <;> simp [condStep]
        rw [hstep]
        have hmem := List.get_mem (((List.range vs.length).map
            (fun i => pfx ++ decChars start ++ "_".data ++ decChars i)).zip vs) i hib
        rw [hget] at hmem
        exact hmem
    | succ j =>
      rw [List.getElem_cons_succ] at hcond
      have hj2 : j < ws.length := by simp at hj; omega
      have := ih (start + 1) j hj2 hcond
      have harith : start + 1 + j = start + (j + 1) := by omega
      rw [harith] at this
      constructor
      · exact List.mem_append_right _ this.1
      · intro i hi
        exact List.mem_append_right _ (this.2 i hi)

theorem isIdChar_of_digit {c : Char} (h : c.isDigit = true) : isIdChar c = true := by
  simp [isIdChar, Char.isAlphanum, h]

theorem inName_idChars (pn : Str) (hpn : ∀ c ∈ pn, isIdChar c = true) (i : Nat) :
    ∀ c ∈ pn ++ "_".data ++ decChars i, isIdChar c = true := by
  intro c hc
  rcases List.mem_append.mp hc with hc | hc
  · rcases List.mem_append.mp hc with hc | hc
    · exact hpn c hc
    · simp only [List.mem_singleton] at hc
      subst hc
      rfl
  · exact isIdChar_of_digit (decChars_digits i c hc)

theorem phsAux_phList (names : List Str) (r : Str)
    (hid : ∀ n ∈ names, ∀ c ∈ n, isIdChar c = true) (hr : headNotId r = true) :
    phsAux (joinSep ", ".data (names.map (fun n => "@".data ++ n)) ++ r)
      = names ++ phsAux r := by
  induction names with
  | nil => simp [joinSep]
  | cons n rest ih =>
    cases rest with
    | nil =>
      have hJ : joinSep ", ".data (([n]).map (fun x => "@".data ++ x)) ++ r
          = '@' :: (n ++ r) := by
        simp [joinSep]
      rw [hJ, phsAux_at n r (hid n (by simp)) hr]
      simp
    | cons m rest2 =>
      have hJ : joinSep ", ".data ((n :: m :: rest2).map (fun x => "@".data ++ x)) ++ r
          = '@' :: (n ++ (", ".data
            ++ (joinSep ", ".data ((m :: rest2).map (fun x => "@".data ++ x)) ++ r))) := by
        simp [joinSep, List.append_assoc]
      rw [hJ, phsAux_at n _ (hid n (by simp)) (by rfl),
        phsAux_append_noAt ", ".data _ (by decide),
        ih (fun x hx => hid x (List.mem_cons_of_mem _ hx))]
      simp

theorem phsAux_clause (col : Str) (op : Op) (names : List Str) (r : Str)
    (hcol : '@' ∉ col) (hop : '@' ∉ op.str)
    (hid : ∀ n ∈ names, ∀ c ∈ n, isIdChar c = true) :
    phsAux (("[".data ++ col ++ "] ".data ++ op.str ++ " (".data
        ++ joinSep ", ".data (names.map (fun n => "@".data ++ n)) ++ ")".data) ++ r)
      = names ++ phsAux r := by
  have hpre : '@' ∉ "[".data ++ col ++ "] ".data ++ op.str ++ " (".data := by
    intro hmem
    rcases List.mem_append.mp hmem with hmem | hmem
    · rcases List.mem_append.mp hmem with hmem | hmem
      · rcases List.mem_append.mp hmem with hmem | hmem
        · rcases List.mem_append.mp hmem with hmem | hmem
          · simp at hmem
          · exact hcol hmem
        · simp at hmem
      · exact hop hmem
    · simp at hmem
  have hshape : ("[".data ++ col ++ "] ".data ++ op.str ++ " (".data
        ++ joinSep ", ".data (names.map (fun n => "@".data ++ n)) ++ ")".data) ++ r
      = ("[".data ++ col ++ "] ".data ++ op.str ++ " (".data)
          ++ (joinSep ", ".data (names.map (fun n => "@".data ++ n))
            ++ (")".data ++ r)) := by
    simp [List.append_assoc]
  rw [hshape, phsAux_append_noAt _ _ hpre,
    phsAux_phList names _ hid (by rfl),
    phsAux_append_noAt ")".data r (by decide)]

/-- C4: membership expansion.  In the WHERE pool shared by buildSelectQuery,
buildUpdateQuery and buildDeleteQuery, a filter predicate at position j with
operator IN or NOT IN and an array value of length N emits the clause
[col] OP (@n_0, …, @n_N-1) (one placeholder per element, exactly N of them
by the placeholder scan, provided the column text carries no stray at
sign), with N pairwise distinct generated names, and each of the three
builders binds the i-th name to the i-th element in its parameter map. -/
theorem claim_c4_membership_expansion :
    (∀ (pfx : Str) (start : Nat) (ws : List WC) (j : Nat) (hj : j < ws.length)
        (col : Str) (op : Op) (vs : List Val),
      ws[j] = ⟨col, op, .arr vs⟩ → op = .isin ∨ op = .notin →
      (("[".data ++ col ++ "] ".data ++ op.str ++ " (".data
          ++ joinSep ", ".data (((List.range vs.length).map
              (fun i => pfx ++ decChars (start + j) ++ "_".data ++ decChars i)).map
            (fun n => "@".data ++ n)) ++ ")".data)
        ∈ (buildConds pfx start ws).1)
      ∧ ((List.range vs.length).map
          (fun i => pfx ++ decChars (start + j) ++ "_".data ++ decChars i)).Nodup
      ∧ ((List.range vs.length).map
          (fun i => pfx ++ decChars (start + j) ++ "_".data ++ decChars i)).length
          = vs.length)
  ∧ (∀ (col : Str) (op : Op) (vs : List Val) (pn : Str),
      op = .isin ∨ op = .notin → '@' ∉ col → (∀ c ∈ pn, isIdChar c = true) →
      phsAux ((condStep pn ⟨col, op, .arr vs⟩).1.getD [])
        = (List.range vs.length).map (fun i => pn ++ "_".data ++ decChars i))
  ∧ (∀ (p : QueryParams) (j : Nat) (hj : j < p.whereCs.length)
        (col : Str) (op : Op) (vs : List Val) (i : Nat) (hi : i < vs.length),
      p.whereCs[j] = ⟨col, op, .arr vs⟩ → op = .isin ∨ op = .notin →
      objGet (buildSelectQuery p).2
          ("param".data ++ decChars (1 + j) ++ "_".data ++ decChars i) = some vs[i])
  ∧ (∀ (t : Str) (d : Obj) (ws : List WC) (j : Nat) (hj : j < ws.length)
        (col : Str) (op : Op) (vs : List Val) (i : Nat) (hi : i < vs.length),
      ws[j] = ⟨col, op, .arr vs⟩ → op = .isin ∨ op = .notin →
      objGet (buildUpdateQuery t d ws).2
          ("where_param".data ++ decChars (1000 + j) ++ "_".data ++ decChars i)
        = some vs[i])
  ∧ (∀ (t : Str) (ws : List WC) (j : Nat) (hj : j < ws.length)
        (col : Str) (op : Op) (vs : List Val) (i : Nat) (hi : i < vs.length),
      ws[j] = ⟨col, op, .arr vs⟩ → op = .isin ∨ op = .notin →
      objGet (buildDeleteQuery t ws).2
          ("param".data ++ decChars (1 + j) ++ "_".data ++ decChars i) = some vs[i]) := by
  refine ⟨?_, ?_, ?_, ?_, ?_⟩
  · intro pfx start ws j hj col op vs hcond hop
    refine ⟨(buildConds_in_clause pfx start ws j hj hcond hop).1, ?_, by simp⟩
    refine (List.nodup_range _).map ?_
    intro i i2 h
    simp only at h
    exact decChars_inj (List.append_cancel_left h)
  · intro col op vs pn hop hcol hpn
    have hstep : (condStep pn ⟨col, op, .arr vs⟩).1
        = some ("[".data ++ col ++ "] ".data ++ op.str ++ " (".data
          ++ joinSep ", ".data (((List.range vs.length).map
              (fun i => pn ++ "_".data ++ decChars i)).map
            (fun n => "@".data ++ n)) ++ ")".data) := by
      rcases hop with rfl | rfl <;> simp [condStep]
    rw [hstep, Option.getD_some]
    have hopat : '@' ∉ op.str := by
      rcases hop with rfl | rfl <;> decide
    have h0 := phsAux_clause col op ((List.range vs.length).map
        (fun i => pn ++ "_".data ++ decChars i)) [] hcol hopat
      (by
        intro n hn
        simp only [List.mem_map, List.mem_range] at hn
        obtain ⟨i, _, rfl⟩ := hn
        exact inName_idChars pn hpn i)
    rw [List.append_nil] at h0
    rw [h0]
    simp [phsAux, phsAuxF]
  · intro p j hj col op vs i hi hcond hop
    have hmem := (buildConds_in_clause "param".data 1 p.whereCs j hj hcond hop).2 i hi
    have hnd := buildConds_names_nodup "param".data 1 p.whereCs
    exact objGet_objFold_of_nodup [] _ _ _ hmem hnd
  · intro t d ws j hj col op vs i hi hcond hop
    have hmem := (buildConds_in_clause "where_param".data 1000 ws j hj hcond hop).2 i hi
    have hnd := buildConds_names_nodup "where_param".data 1000 ws
    exact objGet_objFold_of_nodup d _ _ _ hmem hnd
  · intro t ws j hj col op vs i hi hcond hop
    have hmem := (buildConds_in_clause "param".data 1 ws j hj hcond hop).2 i hi
    have hnd := buildConds_names_nodup "param".data 1 ws
    exact objGet_objFold_of_nodup [] _ _ _ hmem hnd

/-- C4 (witness). -/
theorem claim_c4_witness :
    ("[s] IN (@param1_0, @param1_1, @param1_2)".data
        ∈ (buildConds "param".data 1 [⟨"s".data, .isin,
            .arr [.prim "A".data, .prim "B".data, .prim "C".data]⟩]).1)
  ∧ phsAux ((condStep ("param".data ++ decChars 1) ⟨"s".data, .isin,
        .arr [.prim "A".data, .prim "B".data, .prim "C".data]⟩).1.getD [])
      = ["param1_0".data, "param1_1".data, "param1_2".data]
  ∧ objGet (buildSelectQuery ⟨"t".data, ["*".data],
        [⟨"s".data, .isin, .arr [.prim "A".data, .prim "B".data, .prim "C".data]⟩],
        [], [], none, none⟩).2 "param1_1".data = some (Val.prim "B".data)
  ∧ objGet (buildUpdateQuery "t".data [("a".data, Val.prim "1".data)]
        [⟨"s".data, .isin, .arr [.prim "A".data, .prim "B".data]⟩]).2
      "where_param1000_0".data = some (Val.prim "A".data)
  ∧ objGet (buildDeleteQuery "t".data
        [⟨"s".data, .isin, .arr [.prim "A".data, .prim "B".data]⟩]).2
      "param1_0".data = some (Val.prim "A".data) :=
  ⟨(claim_c4_membership_expansion.1 "param".data 1 [⟨"s".data, .isin,
      .arr [.prim "A".data, .prim "B".data, .prim "C".data]⟩] 0 (by decide)
      "s".data .isin [.prim "A".data, .prim "B".data, .prim "C".data]
      rfl (Or.inl rfl)).1,
    claim_c4_membership_expansion.2.1 "s".data .isin
      [.prim "A".data, .prim "B".data, .prim "C".data]
      ("param".data ++ decChars 1) (Or.inl rfl) (by decide) (by decide),
    claim_c4_membership_expansion.2.2.1 ⟨"t".data, ["*".data],
      [⟨"s".data, .isin, .arr [.prim "A".data, .prim "B".data, .prim "C".data]⟩],
      [], [], none, none⟩ 0 (by decide) "s".data .isin
      [.prim "A".data, .prim "B".data, .prim "C".data] 1 (by decide) rfl (Or.inl rfl),
    claim_c4_membership_expansion.2.2.2.1 "t".data [("a".data, Val.prim "1".data)]
      [⟨"s".data, .isin, .arr [.prim "A".data, .prim "B".data]⟩] 0 (by decide)
      "s".data .isin [.prim "A".data, .prim "B".data] 0 (by decide) rfl (Or.inl rfl),
    claim_c4_membership_expansion.2.2.2.2 "t".data
      [⟨"s".data, .isin, .arr [.prim "A".data, .prim "B".data]⟩] 0 (by decide)
      "s".data .isin [.prim "A".data, .prim "B".data] 0 (by decide) rfl (Or.inl rfl)⟩

theorem op_noAt (op : Op) : '@' ∉ op.str := by
  cases op <;> decide

theorem bwName_idChars (a j : Nat) : ∀ c ∈ bwName a j, isIdChar c = true := by
  intro c hc
  simp only [bwName] at hc
  rcases List.mem_append.mp hc with hc | hc
  · rcases List.mem_append.mp hc with hc | hc
    · rcases List.mem_append.mp hc with hc | hc
      · have hall : ∀ x ∈ ("where_".data : Str), isIdChar x = true := by decide
        exact hall c hc
      · exact isIdChar_of_digit (decChars_digits a c hc)
    · simp only [List.mem_singleton] at hc
      subst hc
      rfl
  · exact isIdChar_of_digit (decChars_digits j c hc)

theorem phsAux_noAt_clause {x : Str} (h : '@' ∉ x) : phsAux x = [] := by
  have := phsAux_append_noAt x [] h
  simpa using this

theorem phsAux_single_ph (pre name : Str) (hpre : '@' ∉ pre)
    (hname : ∀ c ∈ name, isIdChar c = true) :
    phsAux (pre ++ "@".data ++ name) = [name] := by
  have hshape : pre ++ "@".data ++ name = pre ++ ('@' :: (name ++ [])) := by
    simp
  rw [hshape, phsAux_append_noAt pre _ hpre, phsAux_at name [] hname (by rfl)]
  rfl

/-- C5 (amended): the WHERE emission of batchUpdate and batchDelete ignores
the operator policy table for parameter binding: every predicate carrying a
defined value — membership predicates with their whole array included —
emits the clause [col] OP @where_a_j with exactly one placeholder and one
bound parameter holding the raw value; a predicate with an undefined value
emits the bare clause [col] OP with nothing bound, which for the null-test
operators coincides with the policy table form [col] IS [NOT] NULL. -/
theorem claim_c5_amended :
    (∀ (a j : Nat) (w : WC) (ws : List WC),
      (w.value = Val.undef →
        buildBatchWhereAux a j (w :: ws)
          = (("[".data ++ w.column ++ "] ".data ++ w.op.str)
                :: (buildBatchWhereAux a (j + 1) ws).1,
              (buildBatchWhereAux a (j + 1) ws).2))
      ∧ (w.value ≠ Val.undef →
        buildBatchWhereAux a j (w :: ws)
          = (("[".data ++ w.column ++ "] ".data ++ w.op.str ++ " @".data ++ bwName a j)
                :: (buildBatchWhereAux a (j + 1) ws).1,
              (bwName a j, w.value) :: (buildBatchWhereAux a (j + 1) ws).2)))
  ∧ (∀ (a j : Nat) (w : WC), '@' ∉ w.column →
      phsAux ("[".data ++ w.column ++ "] ".data ++ w.op.str ++ " @".data ++ bwName a j)
        = [bwName a j])
  ∧ (∀ (w : WC), '@' ∉ w.column →
      phsAux ("[".data ++ w.column ++ "] ".data ++ w.op.str) = []) := by
  refine ⟨?_, ?_, ?_⟩
  · intro a j w ws
    constructor
    · intro hv
      obtain ⟨col, op, v⟩ := w
      dsimp at hv
      subst hv
      simp [buildBatchWhereAux]
    · intro hv
      obtain ⟨col, op, v⟩ := w
      dsimp at hv ⊢
      cases v with
      | undef => exact absurd rfl hv
      | prim s => simp [buildBatchWhereAux]
      | arr vs => simp [buildBatchWhereAux]
  · intro a j w hcol
    have hpre : '@' ∉ "[".data ++ w.column ++ "] ".data ++ w.op.str ++ " ".data := by
      intro hmem
      rcases List.mem_append.mp hmem with hmem | hmem
      · rcases List.mem_append.mp hmem with hmem | hmem
        · rcases List.mem_append.mp hmem with hmem | hmem
          · rcases List.mem_append.mp hmem with hmem | hmem
            · simp at hmem
            · exact hcol hmem
          · simp at hmem
        · exact op_noAt w.op hmem
      · simp at hmem
    have hshape : "[".data ++ w.column ++ "] ".data ++ w.op.str ++ " @".data ++ bwName a j
        = ("[".data ++ w.column ++ "] ".data ++ w.op.str ++ " ".data)
            ++ "@".data ++ bwName a j := by
      simp [List.append_assoc]
    rw [hshape, phsAux_single_ph _ _ hpre (bwName_idChars a j)]
  · intro w hcol
    apply phsAux_noAt_clause
    intro hmem
    rcases List.mem_append.mp hmem with hmem | hmem
    · rcases List.mem_append.mp hmem with hmem | hmem
      · rcases List.mem_append.mp hmem with hmem | hmem
        · simp at hmem
        · exact hcol hmem
      · simp at hmem
    · exact op_noAt w.op hmem

/-- C5 (counterexample to the claim as stated): in the batch WHERE loop a
membership predicate with a three-element sequence yields a clause with a
single placeholder and a single bound parameter (holding the whole array),
not three — batchUpdate and batchDelete do not implement the membership
expansion of the policy table. -/
theorem claim_c5_counterexample :
    buildBatchWhere 0 [⟨"status".data, .isin,
        .arr [.prim "A".data, .prim "B".data, .prim "C".data]⟩]
      = (["[status] IN @where_0_0".data],
          [("where_0_0".data,
            Val.arr [.prim "A".data, .prim "B".data, .prim "C".data])])
  ∧ (phsAux "[status] IN @where_0_0".data).length = 1
  ∧ (1 : Nat) ≠ 3 :=
  ⟨rfl, rfl, by decide⟩

/-- C5 (witness). -/
theorem claim_c5_witness :
    (buildBatchWhereAux 0 0 [⟨"z".data, .isNull, Val.undef⟩]
        = (("[".data ++ "z".data ++ "] ".data ++ Op.isNull.str)
              :: (buildBatchWhereAux 0 (0 + 1) []).1,
            (buildBatchWhereAux 0 (0 + 1) []).2))
  ∧ (buildBatchWhereAux 0 0 [⟨"s".data, .isin, Val.arr [Val.prim "A".data]⟩]
        = (("[".data ++ "s".data ++ "] ".data ++ Op.isin.str ++ " @".data ++ bwName 0 0)
              :: (buildBatchWhereAux 0 (0 + 1) []).1,
            (bwName 0 0, Val.arr [Val.prim "A".data])
              :: (buildBatchWhereAux 0 (0 + 1) []).2))
  ∧ phsAux ("[".data ++ "s".data ++ "] ".data ++ Op.isin.str ++ " @".data ++ bwName 0 0)
      = [bwName 0 0]
  ∧ phsAux ("[".data ++ "z".data ++ "] ".data ++ Op.isNull.str) = [] :=
  ⟨(claim_c5_amended.1 0 0 ⟨"z".data, .isNull, Val.undef⟩ []).1 rfl,
    (claim_c5_amended.1 0 0 ⟨"s".data, .isin, Val.arr [Val.prim "A".data]⟩ []).2
      (by intro h; cases h),
    claim_c5_amended.2.1 0 0 ⟨"s".data, .isin, Val.arr [Val.prim "A".data]⟩ (by decide),
    claim_c5_amended.2.2 ⟨"z".data, .isNull, Val.undef⟩ (by decide)⟩

theorem prefName_inj (pfx : Str) {a c a2 c2 : Nat}
    (h : pfx ++ decChars a ++ "_".data ++ decChars c
      = pfx ++ decChars a2 ++ "_".data ++ decChars c2) : a = a2 ∧ c = c2 := by
  have h1 : pfx ++ (decChars a ++ ("_".data ++ decChars c))
      = pfx ++ (decChars a2 ++ ("_".data ++ decChars c2)) := by
    simpa [List.append_assoc] using h
  have h2 := digitRun_inj (headNotDigit_underscore _) (headNotDigit_underscore _)
    (List.append_cancel_left h1)
  exact ⟨h2.1, decChars_inj (List.append_cancel_left h2.2)⟩

theorem enumFrom_flatMap_mem {E : Type} {f : Nat → E → List Str} {n : Str} :
    ∀ (es : List E) (k : Nat),
    n ∈ (List.enumFrom k es).flatMap (fun ej => f ej.1 ej.2) →
    ∃ j e, k ≤ j ∧ j < k + es.length ∧ n ∈ f j e := by
  intro es
  induction es with
  | nil =>
    intro k h
    simp [List.enumFrom] at h
  | cons e es ih =>
    intro k h
    simp only [List.enumFrom, List.flatMap_cons, List.mem_append] at h
    rcases h with h | h
    · exact ⟨k, e, Nat.le_refl k, by simp, h⟩
    · obtain ⟨j, e2, h1, h2, h3⟩ := ih (k + 1) h
      refine ⟨j, e2, by omega, ?_, h3⟩
      simp only [List.length_cons]
      omega

theorem enumFrom_flatMap_nodup {E : Type} (f : Nat → E → List Str)
    (tag : Str → Nat → Prop)
    (hnd : ∀ j e, (f j e).Nodup)
    (hin : ∀ j e n, n ∈ f j e → tag n j)
    (huniq : ∀ n j j2, tag n j → tag n j2 → j = j2) :
    ∀ (es : List E) (k : Nat),
    ((List.enumFrom k es).flatMap (fun ej => f ej.1 ej.2)).Nodup := by
  intro es
  induction es with
  | nil => intro k; simp [List.enumFrom]
  | cons e es ih =>
    intro k
    simp only [List.enumFrom, List.flatMap_cons]
    rw [List.nodup_append]
    refine ⟨hnd k e, ih (k + 1), ?_⟩
    intro n hn hn2
    obtain ⟨j, e2, hj1, _, hj3⟩ := enumFrom_flatMap_mem es (k + 1) hn2
    have := huniq n k j (hin k e n hn) (hin j e2 n hj3)
    omega

theorem chunksFrom_names_mem {E : Type} (bs : Nat) (g : Nat → List E → List Str)
    (tag : Str → Nat → Prop)
    (hG2 : ∀ i b n, b.length ≤ bs → n ∈ g i b → ∃ a, i ≤ a ∧ a < i + bs ∧ tag n a) :
    ∀ (m : Nat) (l : List E), l.length ≤ m → ∀ (i : Nat) (n : Str),
    n ∈ (chunksFrom bs i l).flatMap (fun ib => g ib.1 ib.2) →
    ∃ a, i ≤ a ∧ tag n a := by
  intro m
  induction m using Nat.strong_induction_on with
  | _ m ih =>
    intro l hl i n hn
    cases l with
    | nil => simp [chunksFrom, chunksFromF] at hn
    | cons x xs =>
      rw [chunksFrom_cons] at hn
      simp only [List.flatMap_cons, List.mem_append] at hn
      rcases hn with hn | hn
      · obtain ⟨a, ha1, _, ha3⟩ := hG2 i _ n (List.length_take_le _ _) hn
        exact ⟨a, ha1, ha3⟩
      · simp only [List.length_cons] at hl
        obtain ⟨a, ha1, ha3⟩ := ih xs.length (by omega) (xs.drop (bs - 1))
          (List.Sublist.length_le (List.drop_sublist _ _)) (i + bs) n hn
        exact ⟨a, by omega, ha3⟩

theorem chunksFrom_names_nodup {E : Type} (bs : Nat) (g : Nat → List E → List Str)
    (tag : Str → Nat → Prop)
    (hG1 : ∀ i b, b.length ≤ bs → (g i b).Nodup)
    (hG2 : ∀ i b n, b.length ≤ bs → n ∈ g i b → ∃ a, i ≤ a ∧ a < i + bs ∧ tag n a)
    (huniq : ∀ n a a2, tag n a → tag n a2 → a = a2) :
    ∀ (m : Nat) (l : List E), l.length ≤ m → ∀ (i : Nat),
    ((chunksFrom bs i l).flatMap (fun ib => g ib.1 ib.2)).Nodup := by
  intro m
  induction m using Nat.strong_induction_on with
  | _ m ih =>
    intro l hl i
    cases l with
    | nil => simp [chunksFrom, chunksFromF]
    | cons x xs =>
      rw [chunksFrom_cons]
      simp only [List.flatMap_cons, List.length_cons] at hl ⊢
      rw [List.nodup_append]
      refine ⟨hG1 i _ (List.length_take_le _ _),
        ih xs.length (by omega) (xs.drop (bs - 1))
          (List.Sublist.length_le (List.drop_sublist _ _)) (i + bs), ?_⟩
      intro n hn hn2
      obtain ⟨a, ha1, ha2, ha3⟩ := hG2 i _ n (List.length_take_le _ _) hn
      obtain ⟨a2, hb1, hb3⟩ := chunksFrom_names_mem bs g tag hG2 xs.length
        (xs.drop (bs - 1)) (List.Sublist.length_le (List.drop_sublist _ _))
        (i + bs) n hn2
      have := huniq n a a2 ha3 hb3
      omega

theorem updName_ne_bwName (a c a2 j : Nat) : updName a c ≠ bwName a2 j := by
  intro h
  simp [updName, bwName] at h

theorem buildBatchWhereAux_names_mem {a : Nat} {n : Str} :
    ∀ (ws : List WC) (j0 : Nat), n ∈ (buildBatchWhereAux a j0 ws).2.map Prod.fst →
    ∃ j, j0 ≤ j ∧ j < j0 + ws.length ∧ n = bwName a j := by
  intro ws
  induction ws with
  | nil =>
    intro j0 h
    simp [buildBatchWhereAux] at h
  | cons w ws ih =>
    intro j0 h
    cases hv : w.value <;> simp only [buildBatchWhereAux, hv] at h
    case undef =>
      obtain ⟨j, h1, h2, h3⟩ := ih (j0 + 1) h
      refine ⟨j, by omega, ?_, h3⟩
      simp only [List.length_cons]
      omega
    all_goals
      simp only [List.map_cons, List.mem_cons] at h
      rcases h with h | h
      · refine ⟨j0, Nat.le_refl _, ?_, h⟩
        simp only [List.length_cons]
        omega
      · obtain ⟨j, h1, h2, h3⟩ := ih (j0 + 1) h
        refine ⟨j, by omega, ?_, h3⟩
        simp only [List.length_cons]
        omega

theorem buildBatchWhereAux_names_nodup (a : Nat) :
    ∀ (ws : List WC) (j0 : Nat),
    ((buildBatchWhereAux a j0 ws).2.map Prod.fst).Nodup := by
  intro ws
  induction ws with
  | nil => intro j0; simp [buildBatchWhereAux]
  | cons w ws ih =>
    intro j0
    cases hv : w.value <;> simp only [buildBatchWhereAux, hv]
    case undef => exact ih (j0 + 1)
    all_goals
      simp only [List.map_cons]
      rw [List.nodup_cons]
      refine ⟨?_, ih (j0 + 1)⟩
      intro hmem
      obtain ⟨j, h1, _, h3⟩ := buildBatchWhereAux_names_mem ws (j0 + 1) hmem
      have := (prefName_inj "where_".data h3).2
      omega

theorem buildBatchSet_names (a : Nat) (d : Obj) :
    (buildBatchSet a d).2.map Prod.fst = d.enum.map (fun cj => updName a cj.1) := by
  simp [buildBatchSet, List.map_map]

theorem enum_map_name_nodup {β : Type} (l : List β) (f : Nat → Str)
    (hf : Function.Injective f) : ((l.enum.map (fun cj => f cj.1))).Nodup := by
  have h1 : l.enum.map (fun cj => f cj.1) = (l.enum.map Prod.fst).map f := by
    rw [List.map_map]
    rfl
  rw [h1, List.enum_map_fst]
  exact (List.nodup_range _).map hf

theorem enum_map_name_mem {β : Type} {l : List β} {f : Nat → Str} {n : Str}
    (h : n ∈ l.enum.map (fun cj => f cj.1)) : ∃ c, n = f c := by
  simp only [List.mem_map] at h
  obtain ⟨cj, _, rfl⟩ := h
  exact ⟨cj.1, rfl⟩

/-- Absolute-position tag of a bulkInsert parameter name. -/
def insTag (n : Str) (a : Nat) : Prop := ∃ c, n = bulkName a c

/-- Absolute-position tag of a batchUpdate parameter name. -/
def updTag (n : Str) (a : Nat) : Prop :=
  (∃ c, n = updName a c) ∨ (∃ j, n = bwName a j)

/-- Absolute-position tag of a batchDelete parameter name. -/
def delTag (n : Str) (a : Nat) : Prop := ∃ j, n = bwName a j

theorem insTag_uniq (n : Str) (a a2 : Nat) (h : insTag n a) (h2 : insTag n a2) :
    a = a2 := by
  obtain ⟨c, rfl⟩ := h
  obtain ⟨c2, he⟩ := h2
  exact (prefName_inj "param_".data he).1

theorem updTag_uniq (n : Str) (a a2 : Nat) (h : updTag n a) (h2 : updTag n a2) :
    a = a2 := by
  rcases h with ⟨c, rfl⟩ | ⟨j, rfl⟩ <;> rcases h2 with ⟨c2, he⟩ | ⟨j2, he⟩
  · exact (prefName_inj "update_".data he).1
  · exact absurd he (updName_ne_bwName _ _ _ _)
  · exact absurd he.symm (updName_ne_bwName _ _ _ _)
  · exact (prefName_inj "where_".data he).1

theorem delTag_uniq (n : Str) (a a2 : Nat) (h : delTag n a) (h2 : delTag n a2) :
    a = a2 := by
  obtain ⟨j, rfl⟩ := h
  obtain ⟨j2, he⟩ := h2
  exact (prefName_inj "where_".data he).1

theorem bulkBatchNames (i : Nat) (b : List Obj) :
    (bulkBatchBinds i b).map Prod.fst
      = b.enum.flatMap (fun rj => (objKeys (b.headD [])).enum.map
          (fun cj => bulkName (i + rj.1) cj.1)) := by
  simp only [bulkBatchBinds, List.map_flatMap, List.map_map]
  rfl
theorem bulkBatch_names_nodup (i : Nat) (b : List Obj) :
    ((bulkBatchBinds i b).map Prod.fst).Nodup := by
  rw [bulkBatchNames]
  exact enumFrom_flatMap_nodup
    (fun j _ => (objKeys (b.headD [])).enum.map (fun cj => bulkName (i + j) cj.1))
    (fun n j => insTag n (i + j))
    (fun j e => enum_map_name_nodup _ _ (fun c c2 h => (prefName_inj "param_".data h).2))
    (fun j e n hn => enum_map_name_mem hn)
    (fun n j j2 h1 h2 => by
      have := insTag_uniq n (i + j) (i + j2) h1 h2
      omega)
    b 0

theorem bulkBatch_names_tag (i : Nat) (b : List Obj) (n : Str)
    (hn : n ∈ (bulkBatchBinds i b).map Prod.fst) :
    ∃ a, i ≤ a ∧ a < i + b.length ∧ insTag n a := by
  rw [bulkBatchNames] at hn
  have hn2 : n ∈ (List.enumFrom 0 b).flatMap (fun ej =>
      (fun (j : Nat) (_ : Obj) =>
        (objKeys (b.headD [])).enum.map (fun cj => bulkName (i + j) cj.1)) ej.1 ej.2) := hn
  obtain ⟨j, e, hj1, hj2, hj3⟩ := @enumFrom_flatMap_mem Obj
    (fun j _ => (objKeys (b.headD [])).enum.map (fun cj => bulkName (i + j) cj.1))
    n b 0 hn2
  exact ⟨i + j, by omega, by omega, enum_map_name_mem hj3⟩

theorem bulkInsert_names_nodup (bs : Nat) (data : List Obj) :
    (bulkInsertAllNames bs data).Nodup := by
  simp only [bulkInsertAllNames]
  rw [List.map_flatMap]
  exact chunksFrom_names_nodup bs (fun i b => (bulkBatchBinds i b).map Prod.fst)
    insTag
    (fun i b _ => bulkBatch_names_nodup i b)
    (fun i b n hlen hn => by
      obtain ⟨a, h1, h2, h3⟩ := bulkBatch_names_tag i b n hn
      exact ⟨a, h1, by omega, h3⟩)
    insTag_uniq data.length data (Nat.le_refl _) 0

theorem updEntry_names_nodup (a : Nat) (e : UpdateEntry) :
    (((buildBatchSet a e.data).2 ++ (buildBatchWhere a e.whereCs).2).map Prod.fst).Nodup := by
  rw [List.map_append, List.nodup_append]
  refine ⟨?_, buildBatchWhereAux_names_nodup a e.whereCs 0, ?_⟩
  · rw [buildBatchSet_names]
    exact enum_map_name_nodup _ _ (fun c c2 h => (prefName_inj "update_".data h).2)
  · intro n hn hn2
    rw [buildBatchSet_names] at hn
    obtain ⟨c, rfl⟩ := enum_map_name_mem hn
    obtain ⟨j, _, _, h3⟩ := buildBatchWhereAux_names_mem e.whereCs 0 hn2
    exact updName_ne_bwName a c a j h3

theorem updEntry_names_tag (a : Nat) (e : UpdateEntry) (n : Str)
    (hn : n ∈ ((buildBatchSet a e.data).2 ++ (buildBatchWhere a e.whereCs).2).map Prod.fst) :
    updTag n a := by
  rw [List.map_append, List.mem_append] at hn
  rcases hn with hn | hn
  · rw [buildBatchSet_names] at hn
    exact Or.inl (enum_map_name_mem hn)
  · obtain ⟨j, _, _, h3⟩ := buildBatchWhereAux_names_mem e.whereCs 0 hn
    exact Or.inr ⟨j, h3⟩

theorem batchUpdateBatch_names_nodup (i : Nat) (b : List UpdateEntry) :
    ((b.enum.flatMap (fun ej => (buildBatchSet (i + ej.1) ej.2.data).2
        ++ (buildBatchWhere (i + ej.1) ej.2.whereCs).2)).map Prod.fst).Nodup := by
  rw [List.map_flatMap]
  exact enumFrom_flatMap_nodup
    (fun j e => ((buildBatchSet (i + j) e.data).2
        ++ (buildBatchWhere (i + j) e.whereCs).2).map Prod.fst)
    (fun n j => updTag n (i + j))
    (fun j e => updEntry_names_nodup (i + j) e)
    (fun j e n hn => updEntry_names_tag (i + j) e n hn)
    (fun n j j2 h1 h2 => by
      have := updTag_uniq n (i + j) (i + j2) h1 h2
      omega)
    b 0

theorem batchUpdateBatch_names_tag (i : Nat) (b : List UpdateEntry) (n : Str)
    (hn : n ∈ (b.enum.flatMap (fun ej => (buildBatchSet (i + ej.1) ej.2.data).2
        ++ (buildBatchWhere (i + ej.1) ej.2.whereCs).2)).map Prod.fst) :
    ∃ a, i ≤ a ∧ a < i + b.length ∧ updTag n a := by
  rw [List.map_flatMap] at hn
  obtain ⟨j, e, hj1, hj2, hj3⟩ := @enumFrom_flatMap_mem UpdateEntry
    (fun j e => ((buildBatchSet (i + j) e.data).2
        ++ (buildBatchWhere (i + j) e.whereCs).2).map Prod.fst)
    n b 0 hn
  exact ⟨i + j, by omega, by omega, updEntry_names_tag (i + j) e n hj3⟩

theorem batchUpdate_names_nodup (bs : Nat) (ups : List UpdateEntry) :
    (batchUpdateAllNames bs ups).Nodup := by
  simp only [batchUpdateAllNames]
  rw [List.map_flatMap]
  exact chunksFrom_names_nodup bs
    (fun i b => (b.enum.flatMap (fun ej => (buildBatchSet (i + ej.1) ej.2.data).2
        ++ (buildBatchWhere (i + ej.1) ej.2.whereCs).2)).map Prod.fst)
    updTag
    (fun i b _ => batchUpdateBatch_names_nodup i b)
    (fun i b n hlen hn => by
      obtain ⟨a, h1, h2, h3⟩ := batchUpdateBatch_names_tag i b n hn
      exact ⟨a, h1, by omega, h3⟩)
    updTag_uniq ups.length ups (Nat.le_refl _) 0

theorem batchDeleteBatch_names_nodup (i : Nat) (b : List (List WC)) :
    ((b.enum.flatMap (fun ej => (buildBatchWhere (i + ej.1) ej.2).2)).map Prod.fst).Nodup := by
  rw [List.map_flatMap]
  exact enumFrom_flatMap_nodup
    (fun j ws => (buildBatchWhere (i + j) ws).2.map Prod.fst)
    (fun n j => delTag n (i + j))
    (fun j ws => buildBatchWhereAux_names_nodup (i + j) ws 0)
    (fun j ws n hn =>
      let h := buildBatchWhereAux_names_mem ws 0 hn
      ⟨h.choose, h.choose_spec.2.2⟩)
    (fun n j j2 h1 h2 => by
      have := delTag_uniq n (i + j) (i + j2) h1 h2
      omega)
    b 0

theorem batchDeleteBatch_names_tag (i : Nat) (b : List (List WC)) (n : Str)
    (hn : n ∈ (b.enum.flatMap (fun ej => (buildBatchWhere (i + ej.1) ej.2).2)).map Prod.fst) :
    ∃ a, i ≤ a ∧ a < i + b.length ∧ delTag n a := by
  rw [List.map_flatMap] at hn
  obtain ⟨j, ws, hj1, hj2, hj3⟩ := @enumFrom_flatMap_mem (List WC)
    (fun j ws => (buildBatchWhere (i + j) ws).2.map Prod.fst)
    n b 0 hn
  obtain ⟨jj, _, _, h3⟩ := buildBatchWhereAux_names_mem ws 0 hj3
  exact ⟨i + j, by omega, by omega, jj, h3⟩

theorem batchDelete_names_nodup (bs : Nat) (conds : List (List WC)) :
    (batchDeleteAllNames bs conds).Nodup := by
  simp only [batchDeleteAllNames]
  rw [List.map_flatMap]
  exact chunksFrom_names_nodup bs
    (fun i b => (b.enum.flatMap (fun ej => (buildBatchWhere (i + ej.1) ej.2).2)).map Prod.fst)
    delTag
    (fun i b _ => batchDeleteBatch_names_nodup i b)
    (fun i b n hlen hn => by
      obtain ⟨a, h1, h2, h3⟩ := batchDeleteBatch_names_tag i b n hn
      exact ⟨a, h1, by omega, h3⟩)
    delTag_uniq conds.length conds (Nat.le_refl _) 0
theorem chunksFrom_flatMap_snd {α : Type} (bs : Nat) (hbs : 1 ≤ bs) :
    ∀ (m : Nat) (l : List α), l.length ≤ m → ∀ i,
    (chunksFrom bs i l).flatMap Prod.snd = l := by
  intro m
  induction m using Nat.strong_induction_on with
  | _ m ih =>
    intro l hl i
    cases l with
    | nil => simp [chunksFrom, chunksFromF]
    | cons x xs =>
      rw [chunksFrom_cons]
      simp only [List.flatMap_cons, List.length_cons] at hl ⊢
      obtain ⟨b1, rfl⟩ : ∃ b1, bs = b1 + 1 := ⟨bs - 1, by omega⟩
      rw [ih xs.length (by omega) (xs.drop (b1 + 1 - 1))
        (List.Sublist.length_le (List.drop_sublist _ _)) (i + (b1 + 1))]
      simp only [Nat.add_sub_cancel, List.take_succ_cons, List.cons_append,
        List.take_append_drop]

theorem flatMap_const_length {β γ : Type} (K : Nat) :
    ∀ (t : List β) (g : β → List γ), (∀ x, (g x).length = K) →
    (t.flatMap g).length = t.length * K := by
  intro t
  induction t with
  | nil => intro g hg; simp
  | cons x xs ih =>
    intro g hg
    simp only [List.flatMap_cons, List.length_append, List.length_cons, hg, ih g hg]
    ring

theorem bulkBatchBinds_length (i : Nat) (b : List Obj) :
    (bulkBatchBinds i b).length = b.length * (objKeys (b.headD [])).length := by
  simp only [bulkBatchBinds]
  rw [flatMap_const_length ((objKeys (b.headD [])).length) _ _
    (fun rj => by simp [List.enum_length]), List.enum_length]

theorem bulkInsert_count_aux (bs : Nat) (hbs : 1 ≤ bs) (col : Str) :
    ∀ (m : Nat) (l : List Obj), l.length ≤ m → (∀ r ∈ l, objKeys r = [col]) →
    ∀ i, ((chunksFrom bs i l).flatMap (fun ib => bulkBatchBinds ib.1 ib.2)).length
      = l.length := by
  intro m
  induction m using Nat.strong_induction_on with
  | _ m ih =>
    intro l hl hcols i
    cases l with
    | nil => simp [chunksFrom, chunksFromF]
    | cons x xs =>
      rw [chunksFrom_cons]
      simp only [List.flatMap_cons, List.length_append, List.length_cons] at hl ⊢
      obtain ⟨b1, rfl⟩ : ∃ b1, bs = b1 + 1 := ⟨bs - 1, by omega⟩
      rw [ih xs.length (by omega) (xs.drop (b1 + 1 - 1))
        (List.Sublist.length_le (List.drop_sublist _ _))
        (fun r hr => hcols r (List.mem_cons_of_mem x (List.mem_of_mem_drop hr)))
        (i + (b1 + 1))]
      rw [bulkBatchBinds_length]
      simp only [Nat.add_sub_cancel, List.take_succ_cons, List.headD_cons,
        hcols x (List.mem_cons_self x xs), List.length_cons, List.length_singleton,
        List.length_nil, List.length_take, List.length_drop, Nat.mul_one]
      omega
/-- C8: across a whole bulkInsert, batchUpdate or batchDelete call the
parameter names bound over all batches are pairwise distinct, because each
name carries the entry's absolute position (batch offset plus within-batch
index) and its within-row or within-condition index; in particular a
bulkInsert over M single-column records (all naming the same column) binds
exactly M pairwise-distinct names. -/
theorem claim_c8_batch_non_collision (bs : Nat) (hbs : 1 ≤ bs) :
    (∀ data : List Obj, (bulkInsertAllNames bs data).Nodup) ∧
    (∀ ups : List UpdateEntry, (batchUpdateAllNames bs ups).Nodup) ∧
    (∀ conds : List (List WC), (batchDeleteAllNames bs conds).Nodup) ∧
    (∀ (data : List Obj) (col : Str), (∀ r ∈ data, objKeys r = [col]) →
      (bulkInsertAllNames bs data).length = data.length) := by
  refine ⟨bulkInsert_names_nodup bs, batchUpdate_names_nodup bs,
    batchDelete_names_nodup bs, ?_⟩
  intro data col hcols
  simp only [bulkInsertAllNames, List.length_map]
  exact bulkInsert_count_aux bs hbs col data.length data (Nat.le_refl _) hcols 0

/-- C8 witness: at batch size 2 with three entries per tool, all on column
x, every bound name list is duplicate-free, and bulkInsert binds exactly
three names for its three single-column records. -/
theorem claim_c8_witness :
    1 ≤ 2 ∧
    (bulkInsertAllNames 2 [[("x".data, Val.prim "1".data)],
      [("x".data, Val.prim "2".data)], [("x".data, Val.prim "3".data)]]).Nodup ∧
    (batchUpdateAllNames 2 [⟨[("x".data, Val.prim "1".data)],
        [⟨"x".data, Op.eq, Val.prim "0".data⟩]⟩,
      ⟨[("x".data, Val.prim "2".data)], [⟨"x".data, Op.eq, Val.prim "0".data⟩]⟩,
      ⟨[("x".data, Val.prim "3".data)], [⟨"x".data, Op.eq, Val.prim "0".data⟩]⟩]).Nodup ∧
    (batchDeleteAllNames 2 [[⟨"x".data, Op.eq, Val.prim "1".data⟩],
      [⟨"x".data, Op.eq, Val.prim "2".data⟩],
      [⟨"x".data, Op.eq, Val.prim "3".data⟩]]).Nodup ∧
    (bulkInsertAllNames 2 [[("x".data, Val.prim "1".data)],
      [("x".data, Val.prim "2".data)], [("x".data, Val.prim "3".data)]]).length = 3 := by
  have h := claim_c8_batch_non_collision 2 (by decide)
  exact ⟨by decide, h.1 _, h.2.1 _, h.2.2.1 _,
    h.2.2.2 [[("x".data, Val.prim "1".data)], [("x".data, Val.prim "2".data)],
      [("x".data, Val.prim "3".data)]] "x".data (by decide)⟩
theorem enumFrom_map_snd_comp {β γ : Type} (f : β → γ) :
    ∀ (l : List β) (k : Nat), (List.enumFrom k l).map (fun x => f x.2) = l.map f := by
  intro l
  induction l with
  | nil => intro k; rfl
  | cons x xs ih =>
    intro k
    simp only [List.enumFrom, List.map_cons, ih (k + 1)]

theorem enumFrom_flatMap_snd_comp {β γ : Type} (F : β → List γ) :
    ∀ (l : List β) (k : Nat),
    (List.enumFrom k l).flatMap (fun x => F x.2) = l.flatMap F := by
  intro l
  induction l with
  | nil => intro k; rfl
  | cons x xs ih =>
    intro k
    simp only [List.enumFrom, List.flatMap_cons, ih (k + 1)]

theorem bulkBatchBinds_values (i : Nat) (b : List Obj) :
    (bulkBatchBinds i b).map Prod.snd
      = b.flatMap (fun row =>
          (objKeys (b.headD [])).map (fun k => (objGet row k).getD Val.undef)) := by
  simp only [bulkBatchBinds, List.map_flatMap, List.map_map]
  have h1 : ∀ row : Obj,
      (objKeys (b.headD [])).enum.map
          ((fun p : Str × Val => p.2) ∘ fun cj =>
            (bulkName (i + 0) cj.1, (objGet row cj.2).getD Val.undef))
        = (objKeys (b.headD [])).map (fun k => (objGet row k).getD Val.undef) := by
    intro row
    exact enumFrom_map_snd_comp (fun k => (objGet row k).getD Val.undef) _ 0
  have h2 : (List.enumFrom 0 b).flatMap (fun rj =>
        (objKeys (b.headD [])).enum.map
          ((fun p : Str × Val => p.2) ∘ fun cj =>
            (bulkName (i + rj.1) cj.1, (objGet rj.2 cj.2).getD Val.undef)))
      = (List.enumFrom 0 b).flatMap (fun rj =>
          (objKeys (b.headD [])).map (fun k => (objGet rj.2 k).getD Val.undef)) := by
    refine List.flatMap_congr ?_
    intro rj hrj
    exact enumFrom_map_snd_comp (fun k => (objGet rj.2 k).getD Val.undef) _ 0
  rw [show (Prod.snd : Str × Val → Val) = fun p : Str × Val => p.2 from rfl]
  rw [show b.enum = List.enumFrom 0 b from rfl, h2]
  exact enumFrom_flatMap_snd_comp
    (fun row => (objKeys (b.headD [])).map (fun k => (objGet row k).getD Val.undef)) b 0
/-- C10: the batches of a bulkInsert call partition the data in order, and
within each nonempty batch the INSERT statement's column list is the key
list of the batch's first record, every row being bound against exactly
that list: a later record's extra keys contribute nothing, and a column the
later record lacks is bound to the undefined value. -/
theorem claim_c10_first_record_columns (bs : Nat) (hbs : 1 ≤ bs)
    (data : List Obj) (table : Str) :
    (chunksFrom bs 0 data).flatMap Prod.snd = data ∧
    ∀ ib ∈ chunksFrom bs 0 data, ∀ r rest, ib.2 = r :: rest →
      (bulkBatchQuery table ib.1 ib.2
          = "INSERT INTO [".data ++ table ++ "] ([".data
              ++ joinSep "], [".data (objKeys r) ++ "]) VALUES ".data
              ++ joinSep ", ".data ((r :: rest).enum.map (fun rj =>
                  "(".data ++ joinSep ", ".data ((objKeys r).enum.map
                    (fun cj => "@".data ++ bulkName (ib.1 + rj.1) cj.1)) ++ ")".data)))
      ∧ (bulkBatchBinds ib.1 ib.2).map Prod.snd
          = (r :: rest).flatMap (fun row =>
              (objKeys r).map (fun k => (objGet row k).getD Val.undef)) := by
  refine ⟨chunksFrom_flatMap_snd bs hbs data.length data (Nat.le_refl _) 0, ?_⟩
  intro ib hib r rest hr
  constructor
  · simp only [bulkBatchQuery, hr, List.headD_cons]
  · rw [hr, bulkBatchBinds_values]
    simp only [List.headD_cons]

/-- C10 witness: three records batched two at a time; in the first batch
the column list is the first record's keys a, b, the second record's key c
is ignored and its missing column a is bound to undefined. -/
theorem claim_c10_witness :
    1 ≤ 2 ∧
    (chunksFrom 2 0 [[("a".data, Val.prim "1".data), ("b".data, Val.prim "2".data)],
        [("b".data, Val.prim "3".data), ("c".data, Val.prim "4".data)],
        [("a".data, Val.prim "5".data)]]).flatMap Prod.snd
      = [[("a".data, Val.prim "1".data), ("b".data, Val.prim "2".data)],
        [("b".data, Val.prim "3".data), ("c".data, Val.prim "4".data)],
        [("a".data, Val.prim "5".data)]] ∧
    bulkBatchQuery "t".data 0
        [[("a".data, Val.prim "1".data), ("b".data, Val.prim "2".data)],
          [("b".data, Val.prim "3".data), ("c".data, Val.prim "4".data)]]
      = "INSERT INTO [t] ([a], [b]) VALUES (@param_0_0, @param_0_1), (@param_1_0, @param_1_1)".data ∧
    (bulkBatchBinds 0
        [[("a".data, Val.prim "1".data), ("b".data, Val.prim "2".data)],
          [("b".data, Val.prim "3".data), ("c".data, Val.prim "4".data)]]).map Prod.snd
      = [Val.prim "1".data, Val.prim "2".data, Val.undef, Val.prim "3".data] := by
  have h := claim_c10_first_record_columns 2 (by decide)
    [[("a".data, Val.prim "1".data), ("b".data, Val.prim "2".data)],
      [("b".data, Val.prim "3".data), ("c".data, Val.prim "4".data)],
      [("a".data, Val.prim "5".data)]] "t".data
  have hmem : ((0 : Nat), [[("a".data, Val.prim "1".data), ("b".data, Val.prim "2".data)],
        [("b".data, Val.prim "3".data), ("c".data, Val.prim "4".data)]])
      ∈ chunksFrom 2 0 [[("a".data, Val.prim "1".data), ("b".data, Val.prim "2".data)],
        [("b".data, Val.prim "3".data), ("c".data, Val.prim "4".data)],
        [("a".data, Val.prim "5".data)]] := by
    rw [show chunksFrom 2 0 [[("a".data, Val.prim "1".data), ("b".data, Val.prim "2".data)],
        [("b".data, Val.prim "3".data), ("c".data, Val.prim "4".data)],
        [("a".data, Val.prim "5".data)]]
      = [(0, [[("a".data, Val.prim "1".data), ("b".data, Val.prim "2".data)],
          [("b".data, Val.prim "3".data), ("c".data, Val.prim "4".data)]]),
        (2, [[("a".data, Val.prim "5".data)]])] from rfl]
    exact List.mem_cons_self _ _
  have h2 := h.2 _ hmem [("a".data, Val.prim "1".data), ("b".data, Val.prim "2".data)]
    [[("b".data, Val.prim "3".data), ("c".data, Val.prim "4".data)]] rfl
  exact ⟨by decide, h.1, h2.1.trans rfl, h2.2.trans rfl⟩
theorem noAt_append {a b : Str} (ha : '@' ∉ a) (hb : '@' ∉ b) : '@' ∉ a ++ b :=
  fun hm => (List.mem_append.mp hm).elim ha hb

theorem noAt_of_idChars {k : Str} (h : ∀ c ∈ k, isIdChar c = true) : '@' ∉ k :=
  fun hm => absurd (h '@' hm) (by decide)

theorem decChars_noAt (n : Nat) : '@' ∉ decChars n :=
  fun hm => absurd (decChars_digits n '@' hm) (by decide)

theorem noAt_joinSep {sep : Str} (hsep : '@' ∉ sep) :
    ∀ {l : List Str}, (∀ x ∈ l, '@' ∉ x) → '@' ∉ joinSep sep l := by
  intro l
  induction l with
  | nil => intro h hm; cases hm
  | cons x xs ih =>
    intro h
    cases xs with
    | nil =>
      show '@' ∉ joinSep sep [x]
      exact h x (by simp)
    | cons y ys =>
      show '@' ∉ x ++ sep ++ joinSep sep (y :: ys)
      exact noAt_append (noAt_append (h x (by simp)) hsep)
        (ih (fun z hz => h z (List.mem_cons_of_mem _ hz)))

theorem noAt_flatten {l : List Str} (h : ∀ x ∈ l, '@' ∉ x) : '@' ∉ l.flatten := by
  induction l with
  | nil => intro hm; cases hm
  | cons x xs ih =>
    rw [List.flatten_cons]
    exact noAt_append (h x (by simp)) (ih (fun z hz => h z (List.mem_cons_of_mem _ hz)))

theorem genName_idChars (pfx : Str) (hpfx : ∀ c ∈ pfx, isIdChar c = true) (n : Nat) :
    ∀ c ∈ pfx ++ decChars n, isIdChar c = true := by
  intro c hc
  rcases List.mem_append.mp hc with hc | hc
  · exact hpfx c hc
  · exact isIdChar_of_digit (decChars_digits n c hc)

theorem condStep_none_binds (pn : Str) (w : WC) (h : (condStep pn w).1 = none) :
    (condStep pn w).2 = [] := by
  rcases w with ⟨col, op, v⟩
  cases op <;> first
    | (cases v <;> simp_all [condStep])
    | simp_all [condStep]

theorem phs_default_clause (col opstr pn t : Str) (hcol : '@' ∉ col)
    (hop : '@' ∉ opstr) (hpn : ∀ c ∈ pn, isIdChar c = true) (ht : headNotId t = true) :
    phsAux (("[".data ++ col ++ "] ".data ++ opstr ++ " @".data ++ pn) ++ t)
      = [pn] ++ phsAux t := by
  have hshape : ("[".data ++ col ++ "] ".data ++ opstr ++ " @".data ++ pn) ++ t
      = ("[".data ++ col ++ "] ".data ++ opstr ++ " ".data) ++ ('@' :: (pn ++ t)) := by
    simp [List.append_assoc]
  rw [hshape, phsAux_append_noAt _ _ (noAt_append (noAt_append (noAt_append
      (noAt_append (by decide) hcol) (by decide)) hop) (by decide)),
    phsAux_at pn t hpn ht]
  rfl

theorem condStep_phs (pn : Str) (w : WC) (cl : Str) (t : Str)
    (hcol : '@' ∉ w.column) (hpn : ∀ c ∈ pn, isIdChar c = true)
    (ht : headNotId t = true) (hcl : (condStep pn w).1 = some cl) :
    phsAux (cl ++ t) = (condStep pn w).2.map Prod.fst ++ phsAux t := by
  rcases w with ⟨col, op, v⟩
  simp only at hcol
  cases op
  case isNull =>
    simp only [condStep] at hcl ⊢
    obtain rfl := Option.some.inj hcl
    rw [phsAux_append_noAt _ t
      (noAt_append (noAt_append (by decide) hcol) (by decide))]
    rfl
  case isNotNull =>
    simp only [condStep] at hcl ⊢
    obtain rfl := Option.some.inj hcl
    rw [phsAux_append_noAt _ t
      (noAt_append (noAt_append (by decide) hcol) (by decide))]
    rfl
  case isin =>
    cases v with
    | undef => simp [condStep] at hcl
    | prim sv => simp [condStep] at hcl
    | arr vs =>
      simp only [condStep] at hcl ⊢
      obtain rfl := Option.some.inj hcl
      rw [map_fst_zip_eq (by simp)]
      exact phsAux_clause col Op.isin
        ((List.range vs.length).map (fun i => pn ++ "_".data ++ decChars i)) t hcol
        (op_noAt Op.isin)
        (fun n hn => by
          simp only [List.mem_map, List.mem_range] at hn
          obtain ⟨i, hi, rfl⟩ := hn
          exact inName_idChars pn hpn i)
  case notin =>
    cases v with
    | undef => simp [condStep] at hcl
    | prim sv => simp [condStep] at hcl
    | arr vs =>
      simp only [condStep] at hcl ⊢
      obtain rfl := Option.some.inj hcl
      rw [map_fst_zip_eq (by simp)]
      exact phsAux_clause col Op.notin
        ((List.range vs.length).map (fun i => pn ++ "_".data ++ decChars i)) t hcol
        (op_noAt Op.notin)
        (fun n hn => by
          simp only [List.mem_map, List.mem_range] at hn
          obtain ⟨i, hi, rfl⟩ := hn
          exact inName_idChars pn hpn i)
  all_goals
    simp only [condStep, Op.str] at hcl ⊢
    obtain rfl := Option.some.inj hcl
    rw [phs_default_clause col _ pn t hcol (by decide) hpn ht]
    rfl
theorem buildConds_nil_binds (pfx : Str) :
    ∀ (ws : List WC) (c : Nat), (buildConds pfx c ws).1 = [] →
    (buildConds pfx c ws).2 = [] := by
  intro ws
  induction ws with
  | nil => intro c _; rfl
  | cons w rest ih =>
    intro c h
    simp only [buildConds] at h ⊢
    cases hstep : (condStep (pfx ++ decChars c) w).1 with
    | some cl => rw [hstep] at h; simp at h
    | none =>
      rw [hstep] at h
      simp only [Option.toList_none, List.nil_append] at h
      rw [condStep_none_binds _ _ hstep, ih (c + 1) h, List.nil_append]

theorem buildConds_phs (pfx : Str) (hpfx : ∀ c ∈ pfx, isIdChar c = true) :
    ∀ (ws : List WC) (c : Nat) (r : Str), (∀ w ∈ ws, '@' ∉ w.column) →
    headNotId r = true →
    phsAux (joinSep " AND ".data (buildConds pfx c ws).1 ++ r)
      = (buildConds pfx c ws).2.map Prod.fst ++ phsAux r := by
  intro ws
  induction ws with
  | nil =>
    intro c r _ _
    simp [buildConds, joinSep]
  | cons w rest ih =>
    intro c r hcols hr
    have hcol : '@' ∉ w.column := hcols w (by simp)
    have hpn : ∀ x ∈ pfx ++ decChars c, isIdChar x = true := genName_idChars pfx hpfx c
    have hrest : ∀ x ∈ rest, '@' ∉ x.column :=
      fun x hx => hcols x (List.mem_cons_of_mem _ hx)
    simp only [buildConds]
    cases hstep : (condStep (pfx ++ decChars c) w).1 with
    | none =>
      rw [condStep_none_binds _ _ hstep]
      simp only [Option.toList_none, List.nil_append]
      exact ih (c + 1) r hrest hr
    | some cl =>
      simp only [Option.toList_some, List.singleton_append]
      cases hrcl : (buildConds pfx (c + 1) rest).1 with
      | nil =>
        have hrb : (buildConds pfx (c + 1) rest).2 = [] :=
          buildConds_nil_binds pfx rest (c + 1) hrcl
        rw [hrb, List.append_nil]
        show phsAux (joinSep " AND ".data [cl] ++ r) = _
        show phsAux (cl ++ r) = _
        exact condStep_phs _ w cl r hcol hpn hr hstep
      | cons cl2 cls2 =>
        show phsAux ((cl ++ " AND ".data ++ joinSep " AND ".data (cl2 :: cls2)) ++ r) = _
        have hshape : (cl ++ " AND ".data ++ joinSep " AND ".data (cl2 :: cls2)) ++ r
            = cl ++ (" AND ".data ++ (joinSep " AND ".data (cl2 :: cls2) ++ r)) := by
          simp [List.append_assoc]
        rw [hshape,
          condStep_phs _ w cl _ hcol hpn (by rfl) hstep,
          phsAux_append_noAt " AND ".data _ (by decide)]
        rw [← hrcl, ih (c + 1) r hrest hr]
        simp [List.map_append, List.append_assoc]
theorem phsAux_setList (cols : List Str) (r : Str)
    (hid : ∀ k ∈ cols, ∀ c ∈ k, isIdChar c = true) (hr : headNotId r = true) :
    phsAux (joinSep ", ".data
        (cols.map (fun col => "[".data ++ col ++ "] = @".data ++ col)) ++ r)
      = cols ++ phsAux r := by
  induction cols with
  | nil => simp [joinSep]
  | cons k rest ih =>
    cases rest with
    | nil =>
      have hJ : joinSep ", ".data
            ([k].map (fun col => "[".data ++ col ++ "] = @".data ++ col)) ++ r
          = ("[".data ++ k ++ "] = ".data) ++ ('@' :: (k ++ r)) := by
        simp [joinSep, List.append_assoc]
      rw [hJ, phsAux_append_noAt _ _ (noAt_append (noAt_append (by decide)
          (noAt_of_idChars (hid k (by simp)))) (by decide)),
        phsAux_at k r (hid k (by simp)) hr]
      simp
    | cons m rest2 =>
      have hJ : joinSep ", ".data
            ((k :: m :: rest2).map (fun col => "[".data ++ col ++ "] = @".data ++ col)) ++ r
          = ("[".data ++ k ++ "] = ".data) ++ ('@' :: (k ++ (", ".data
              ++ (joinSep ", ".data
                ((m :: rest2).map (fun col => "[".data ++ col ++ "] = @".data ++ col)) ++ r)))) := by
        simp [joinSep, List.append_assoc]
      rw [hJ, phsAux_append_noAt _ _ (noAt_append (noAt_append (by decide)
          (noAt_of_idChars (hid k (by simp)))) (by decide)),
        phsAux_at k _ (hid k (by simp)) (by rfl),
        phsAux_append_noAt ", ".data _ (by decide),
        ih (fun x hx => hid x (List.mem_cons_of_mem _ hx))]
      simp

theorem joinKind_noAt (k : JoinKind) : '@' ∉ k.str := by
  cases k <;> decide

theorem dir_noAt (d : Dir) : '@' ∉ d.str := by
  cases d <;> decide

theorem joinFrag_noAt (j : JoinC) (ht : '@' ∉ j.table) (ho : '@' ∉ j.onTxt) :
    '@' ∉ joinFrag j :=
  noAt_append (noAt_append (noAt_append (noAt_append (noAt_append (by decide)
    (joinKind_noAt j.kind)) (by decide)) ht) (by decide)) ho

theorem orderFrag_noAt (o : Str × Dir) (h : '@' ∉ o.1) :
    '@' ∉ "[".data ++ o.1 ++ "] ".data ++ o.2.str :=
  noAt_append (noAt_append (noAt_append (by decide) h) (by decide)) (dir_noAt o.2)

theorem selTail_phs (p : QueryParams)
    (hJ : ∀ j ∈ p.joins, '@' ∉ j.table ∧ '@' ∉ j.onTxt)
    (hW : ∀ w ∈ p.whereCs, '@' ∉ w.column)
    (hO : ∀ o ∈ p.orderBy, '@' ∉ o.1)
    (r : Str) (hr : headNotId r = true) (hrAt : '@' ∉ r) :
    phsAux (selTail p ++ r)
      = (buildConds "param".data 1 p.whereCs).2.map Prod.fst := by
  have hJn : '@' ∉ (p.joins.map joinFrag).flatten := by
    refine noAt_flatten ?_
    intro x hx
    simp only [List.mem_map] at hx
    obtain ⟨j, hj, rfl⟩ := hx
    exact joinFrag_noAt j (hJ j hj).1 (hJ j hj).2
  have hOB : '@' ∉ (if p.orderBy.length > 0
      then " ORDER BY ".data ++ joinSep ", ".data
        (p.orderBy.map (fun o => "[".data ++ o.1 ++ "] ".data ++ o.2.str))
      else []) := by
    split
    · refine noAt_append (by decide) (noAt_joinSep (by decide) ?_)
      intro x hx
      simp only [List.mem_map] at hx
      obtain ⟨o, ho, rfl⟩ := hx
      exact orderFrag_noAt o (hO o ho)
    · intro hm; cases hm
  have hOBr : headNotId ((if p.orderBy.length > 0
      then " ORDER BY ".data ++ joinSep ", ".data
        (p.orderBy.map (fun o => "[".data ++ o.1 ++ "] ".data ++ o.2.str))
      else []) ++ r) = true := by
    split
    · rfl
    · simpa using hr
  have hshape : selTail p ++ r
      = (p.joins.map joinFrag).flatten
          ++ ((if p.whereCs.length > 0
              then " WHERE ".data
                ++ joinSep " AND ".data (buildConds "param".data 1 p.whereCs).1
              else [])
            ++ ((if p.orderBy.length > 0
                then " ORDER BY ".data ++ joinSep ", ".data
                  (p.orderBy.map (fun o => "[".data ++ o.1 ++ "] ".data ++ o.2.str))
                else []) ++ r)) := by
    simp [selTail, List.append_assoc]
  rw [hshape, phsAux_append_noAt _ _ hJn]
  by_cases hw : p.whereCs.length > 0
  · rw [if_pos hw]
    have hshape2 : (" WHERE ".data
          ++ joinSep " AND ".data (buildConds "param".data 1 p.whereCs).1)
        ++ ((if p.orderBy.length > 0
            then " ORDER BY ".data ++ joinSep ", ".data
              (p.orderBy.map (fun o => "[".data ++ o.1 ++ "] ".data ++ o.2.str))
            else []) ++ r)
        = " WHERE ".data
          ++ (joinSep " AND ".data (buildConds "param".data 1 p.whereCs).1
            ++ ((if p.orderBy.length > 0
              then " ORDER BY ".data ++ joinSep ", ".data
                (p.orderBy.map (fun o => "[".data ++ o.1 ++ "] ".data ++ o.2.str))
              else []) ++ r)) := by
      simp [List.append_assoc]
    rw [hshape2, phsAux_append_noAt " WHERE ".data _ (by decide),
      buildConds_phs "param".data (by decide) p.whereCs 1 _ hW hOBr,
      phsAux_noAt_clause (noAt_append hOB hrAt)]
    simp
  · rw [if_neg hw]
    have hw0 : p.whereCs = [] := by
      cases hx : p.whereCs with
      | nil => rfl
      | cons a l => rw [hx] at hw; simp at hw
    rw [hw0]
    show phsAux ([] ++ _) = _
    rw [List.nil_append, phsAux_noAt_clause (noAt_append hOB hrAt)]
    rfl
theorem buildSelect_offset_raw (p : QueryParams) (hl : truthy p.limit = true)
    (ho : truthy p.offset = true) :
    (buildSelectQuery p).1
      = ("SELECT ".data ++ joinSep ", ".data p.columns ++ " FROM [".data ++ p.table
          ++ "]".data ++ selTail p)
        ++ (" OFFSET ".data ++ decChars (p.offset.getD 0)
          ++ " ROWS FETCH NEXT ".data ++ decChars (p.limit.getD 0)
          ++ " ROWS ONLY".data) := by
  by_cases hw : p.whereCs.length > 0 <;> by_cases hob : p.orderBy.length > 0 <;>
    simp only [buildSelectQuery, joins_foldl, hl, ho, if_true, hw, hob, selTail,
      Bool.false_eq_true, if_false] <;>
    simp [List.append_assoc]

theorem buildSelect_phs (p : QueryParams)
    (hT : '@' ∉ p.table) (hC : ∀ col ∈ p.columns, '@' ∉ col)
    (hJ : ∀ j ∈ p.joins, '@' ∉ j.table ∧ '@' ∉ j.onTxt)
    (hW : ∀ w ∈ p.whereCs, '@' ∉ w.column)
    (hO : ∀ o ∈ p.orderBy, '@' ∉ o.1)
    (hsub : ¬ isSub " FROM".data ("SELECT ".data ++ joinSep ", ".data p.columns)) :
    phsAux (buildSelectQuery p).1
      = (buildConds "param".data 1 p.whereCs).2.map Prod.fst := by
  have hcolsN : '@' ∉ joinSep ", ".data p.columns := noAt_joinSep (by decide) hC
  have h0 : phsAux (selTail p)
      = (buildConds "param".data 1 p.whereCs).2.map Prod.fst := by
    have h := selTail_phs p hJ hW hO [] rfl (fun hm => absurd hm (List.not_mem_nil _))
    simpa using h
  cases hLim : truthy p.limit with
  | false =>
    rw [show (buildSelectQuery p).1 = "SELECT ".data ++ joinSep ", ".data p.columns
        ++ " FROM [".data ++ p.table ++ "]".data ++ selTail p from
      congrArg Prod.fst (buildSelect_no_pagination p hLim)]
    have hshape : "SELECT ".data ++ joinSep ", ".data p.columns
        ++ " FROM [".data ++ p.table ++ "]".data ++ selTail p
        = ("SELECT ".data ++ joinSep ", ".data p.columns
            ++ " FROM [".data ++ p.table ++ "]".data) ++ selTail p := by
      simp [List.append_assoc]
    rw [hshape, phsAux_append_noAt _ _ (noAt_append (noAt_append (noAt_append
      (noAt_append (by decide) hcolsN) (by decide)) hT) (by decide)), h0]
  | true =>
    cases hOff : truthy p.offset with
    | true =>
      rw [buildSelect_offset_raw p hLim hOff]
      have hshape : ("SELECT ".data ++ joinSep ", ".data p.columns
            ++ " FROM [".data ++ p.table ++ "]".data ++ selTail p)
          ++ (" OFFSET ".data ++ decChars (p.offset.getD 0)
            ++ " ROWS FETCH NEXT ".data ++ decChars (p.limit.getD 0)
            ++ " ROWS ONLY".data)
          = ("SELECT ".data ++ joinSep ", ".data p.columns
              ++ " FROM [".data ++ p.table ++ "]".data)
            ++ (selTail p ++ (" OFFSET ".data ++ decChars (p.offset.getD 0)
              ++ " ROWS FETCH NEXT ".data ++ decChars (p.limit.getD 0)
              ++ " ROWS ONLY".data)) := by
        simp [List.append_assoc]
      have hpre : '@' ∉ ("SELECT ".data ++ joinSep ", ".data p.columns
          ++ " FROM [".data ++ p.table ++ "]".data) :=
        noAt_append (noAt_append (noAt_append
          (noAt_append (by decide) hcolsN) (by decide)) hT) (by decide)
      have htail : headNotId (" OFFSET ".data ++ decChars (p.offset.getD 0)
          ++ " ROWS FETCH NEXT ".data ++ decChars (p.limit.getD 0)
          ++ " ROWS ONLY".data) = true := rfl
      have htailAt : '@' ∉ (" OFFSET ".data ++ decChars (p.offset.getD 0)
          ++ " ROWS FETCH NEXT ".data ++ decChars (p.limit.getD 0)
          ++ " ROWS ONLY".data) :=
        noAt_append (noAt_append (noAt_append (noAt_append (by decide)
          (decChars_noAt _)) (by decide)) (decChars_noAt _)) (by decide)
      rw [hshape, phsAux_append_noAt _ _ hpre,
        selTail_phs p hJ hW hO _ htail htailAt]
    | false =>
      obtain ⟨l, hl, hl0⟩ : ∃ l, p.limit = some l ∧ l ≠ 0 := by
        cases hx : p.limit with
        | none => rw [hx] at hLim; simp [truthy] at hLim
        | some l =>
          refine ⟨l, rfl, ?_⟩
          rw [hx] at hLim
          simp [truthy] at hLim
          omega
      have htop := congrArg Prod.fst (buildSelect_top_raw p l hl hl0 hOff)
      simp only at htop
      have hbase1 : (buildSelectQuery {p with limit := none, offset := none}).1
          = ("SELECT ".data ++ joinSep ", ".data p.columns)
            ++ (" FROM ".data ++ ("[".data ++ p.table ++ "]".data ++ selTail p)) := by
        rw [congrArg Prod.fst (buildSelect_no_pagination
          {p with limit := none, offset := none} rfl)]
        simp [selTail, List.append_assoc]
      rw [hbase1] at htop
      rw [top_splice_drop _ _ hsub] at htop
      rw [htop]
      have hshape : "SELECT TOP ".data ++ decChars l ++ " ".data
            ++ joinSep ", ".data p.columns ++ " FROM [".data ++ p.table ++ "]".data
            ++ ("[".data ++ p.table ++ "]".data ++ selTail p)
          = ("SELECT TOP ".data ++ decChars l ++ " ".data
              ++ joinSep ", ".data p.columns ++ " FROM [".data ++ p.table ++ "]".data
              ++ "[".data ++ p.table ++ "]".data) ++ selTail p := by
        simp [List.append_assoc]
      have hpre : '@' ∉ ("SELECT TOP ".data ++ decChars l ++ " ".data
          ++ joinSep ", ".data p.columns ++ " FROM [".data ++ p.table ++ "]".data
          ++ "[".data ++ p.table ++ "]".data) :=
        noAt_append (noAt_append (noAt_append (noAt_append (noAt_append
          (noAt_append (noAt_append (noAt_append (noAt_append (by decide)
            (decChars_noAt l)) (by decide)) hcolsN) (by decide)) hT)
          (by decide)) (by decide)) hT) (by decide)
      rw [hshape, phsAux_append_noAt _ _ hpre, h0]
theorem if_append2 (c : Prop) [Decidable c] (x a b : Str) :
    (if c then x ++ a ++ b else x) = x ++ (if c then a ++ b else []) := by
  split <;> simp

theorem whereBlock_phs (pfx : Str) (hpfx : ∀ c ∈ pfx, isIdChar c = true)
    (ws : List WC) (c : Nat) (hW : ∀ w ∈ ws, '@' ∉ w.column) :
    phsAux (if ws.length > 0
        then " WHERE ".data ++ joinSep " AND ".data (buildConds pfx c ws).1
        else [])
      = (buildConds pfx c ws).2.map Prod.fst := by
  split
  case isTrue hw =>
    have h := buildConds_phs pfx hpfx ws c [] hW rfl
    rw [phsAux_append_noAt " WHERE ".data _ (by decide)]
    simpa [show phsAux ([] : Str) = [] from rfl] using h
  case isFalse hw =>
    have hw0 : ws = [] := by
      cases hx : ws with
      | nil => rfl
      | cons a l => rw [hx] at hw; simp at hw
    rw [hw0]
    rfl

theorem whereBlock_headNotId (pfx : Str) (ws : List WC) (c : Nat) :
    headNotId (if ws.length > 0
        then " WHERE ".data ++ joinSep " AND ".data (buildConds pfx c ws).1
        else []) = true := by
  split <;> rfl

/-- C2 (amended): under placeholder hygiene of the caller-controlled text
fragments — no at sign in the table, columns, join tables, raw join ON
text, WHERE columns or ORDER BY columns, record keys made of identifier
characters with no duplicates, and for SELECT a projection that does not
itself contain the FROM fragment — the set of placeholder names scanned
from the statement of each of the four builders equals the key set of its
parameter map, and that map binds each name exactly once.  Without the
hygiene hypotheses the equality fails (see the counterexample: a join ON
text with a stray at sign introduces a placeholder bound to nothing). -/
theorem claim_c2_amended :
    (∀ p : QueryParams,
      '@' ∉ p.table → (∀ col ∈ p.columns, '@' ∉ col) →
      (∀ j ∈ p.joins, '@' ∉ j.table ∧ '@' ∉ j.onTxt) →
      (∀ w ∈ p.whereCs, '@' ∉ w.column) →
      (∀ o ∈ p.orderBy, '@' ∉ o.1) →
      ¬ isSub " FROM".data ("SELECT ".data ++ joinSep ", ".data p.columns) →
      (phsAux (buildSelectQuery p).1).toFinset
          = (objKeys (buildSelectQuery p).2).toFinset
        ∧ (objKeys (buildSelectQuery p).2).Nodup)
  ∧ (∀ (t : Str) (data : Obj), '@' ∉ t →
      (∀ k ∈ objKeys data, ∀ c ∈ k, isIdChar c = true) → (objKeys data).Nodup →
      (phsAux (buildInsertQuery t data).1).toFinset
          = (objKeys (buildInsertQuery t data).2).toFinset
        ∧ (objKeys (buildInsertQuery t data).2).Nodup)
  ∧ (∀ (t : Str) (data : Obj) (ws : List WC), '@' ∉ t →
      (∀ k ∈ objKeys data, ∀ c ∈ k, isIdChar c = true) → (objKeys data).Nodup →
      (∀ w ∈ ws, '@' ∉ w.column) →
      (phsAux (buildUpdateQuery t data ws).1).toFinset
          = (objKeys (buildUpdateQuery t data ws).2).toFinset
        ∧ (objKeys (buildUpdateQuery t data ws).2).Nodup)
  ∧ (∀ (t : Str) (ws : List WC), '@' ∉ t → (∀ w ∈ ws, '@' ∉ w.column) →
      (phsAux (buildDeleteQuery t ws).1).toFinset
          = (objKeys (buildDeleteQuery t ws).2).toFinset
        ∧ (objKeys (buildDeleteQuery t ws).2).Nodup) := by
  refine ⟨?_, ?_, ?_, ?_⟩
  · intro p hT hC hJ hW hO hsub
    have hphs := buildSelect_phs p hT hC hJ hW hO hsub
    have hp2 : (buildSelectQuery p).2
        = objFold [] (buildConds "param".data 1 p.whereCs).2 := rfl
    constructor
    · rw [hphs, hp2, objKeys_objFold_toFinset]
      simp [objKeys]
    · rw [hp2]
      exact objKeys_objFold_nodup [] _ (by simp [objKeys])
  · intro t data hT hkeys hnd
    have hpre : '@' ∉ ("INSERT INTO [".data ++ t ++ "] ([".data
        ++ joinSep "], [".data (objKeys data) ++ "]) VALUES (".data) :=
      noAt_append (noAt_append (noAt_append (noAt_append (by decide) hT)
        (by decide)) (noAt_joinSep (by decide)
          (fun k hk => noAt_of_idChars (hkeys k hk)))) (by decide)
    have htext : (buildInsertQuery t data).1
        = ("INSERT INTO [".data ++ t ++ "] ([".data
            ++ joinSep "], [".data (objKeys data) ++ "]) VALUES (".data)
          ++ (joinSep ", ".data ((objKeys data).map (fun col => "@".data ++ col))
            ++ ")".data) := by
      simp [buildInsertQuery, List.append_assoc]
    have hphs : phsAux (buildInsertQuery t data).1 = objKeys data := by
      rw [htext, phsAux_append_noAt _ _ hpre,
        phsAux_phList (objKeys data) ")".data hkeys (by decide)]
      simp [show phsAux (")".data) = [] from rfl]
    exact ⟨by rw [hphs]; rfl, hnd⟩
  · intro t data ws hT hkeys hnd hW
    have hpre : '@' ∉ ("UPDATE [".data ++ t ++ "] SET ".data) :=
      noAt_append (noAt_append (by decide) hT) (by decide)
    have htext : (buildUpdateQuery t data ws).1
        = ("UPDATE [".data ++ t ++ "] SET ".data)
          ++ (joinSep ", ".data ((objKeys data).map
                (fun col => "[".data ++ col ++ "] = @".data ++ col))
            ++ (if ws.length > 0
                then " WHERE ".data
                  ++ joinSep " AND ".data (buildConds "where_param".data 1000 ws).1
                else [])) := by
      simp only [buildUpdateQuery]
      rw [if_append2]
      simp [List.append_assoc]
    have hphs : phsAux (buildUpdateQuery t data ws).1
        = objKeys data ++ (buildConds "where_param".data 1000 ws).2.map Prod.fst := by
      rw [htext, phsAux_append_noAt _ _ hpre,
        phsAux_setList (objKeys data) _ hkeys
          (whereBlock_headNotId "where_param".data ws 1000),
        whereBlock_phs "where_param".data (by decide) ws 1000 hW]
    have hp2 : (buildUpdateQuery t data ws).2
        = objFold data (buildConds "where_param".data 1000 ws).2 := rfl
    constructor
    · rw [hphs, hp2, objKeys_objFold_toFinset, List.toFinset_append]
    · rw [hp2]
      exact objKeys_objFold_nodup data _ hnd
  · intro t ws hT hW
    have hpre : '@' ∉ ("DELETE FROM [".data ++ t ++ "]".data) :=
      noAt_append (noAt_append (by decide) hT) (by decide)
    have htext : (buildDeleteQuery t ws).1
        = ("DELETE FROM [".data ++ t ++ "]".data)
          ++ (if ws.length > 0
              then " WHERE ".data
                ++ joinSep " AND ".data (buildConds "param".data 1 ws).1
              else []) := by
      simp only [buildDeleteQuery]
      rw [if_append2]
    have hphs : phsAux (buildDeleteQuery t ws).1
        = (buildConds "param".data 1 ws).2.map Prod.fst := by
      rw [htext, phsAux_append_noAt _ _ hpre,
        whereBlock_phs "param".data (by decide) ws 1 hW]
    have hp2 : (buildDeleteQuery t ws).2
        = objFold [] (buildConds "param".data 1 ws).2 := rfl
    constructor
    · rw [hphs, hp2, objKeys_objFold_toFinset]
      simp [objKeys]
    · rw [hp2]
      exact objKeys_objFold_nodup [] _ (by simp [objKeys])
/-- C2 counterexample: a join whose raw ON text carries a stray at sign —
nothing the builders escape — makes the statement reference the placeholder
x while the parameter map of the query stays empty, so the placeholder set
and the key set differ. -/
theorem claim_c2_counterexample :
    (phsAux (buildSelectQuery ⟨"t".data, ["*".data], [],
        [⟨JoinKind.inner, "u".data, "[t].a = @x".data⟩], [], none, none⟩).1).toFinset
      ≠ (objKeys (buildSelectQuery ⟨"t".data, ["*".data], [],
        [⟨JoinKind.inner, "u".data, "[t].a = @x".data⟩], [], none, none⟩).2).toFinset := by
  decide

/-- C2 witness: on hygienic concrete inputs each of the four builders
produces a statement whose scanned placeholder set is exactly the key set
of its parameter map, with no duplicate keys. -/
theorem claim_c2_witness :
    ((phsAux (buildSelectQuery ⟨"t".data, ["*".data],
          [⟨"a".data, Op.eq, Val.prim "1".data⟩], [], [], none, none⟩).1).toFinset
        = (objKeys (buildSelectQuery ⟨"t".data, ["*".data],
          [⟨"a".data, Op.eq, Val.prim "1".data⟩], [], [], none, none⟩).2).toFinset
      ∧ (objKeys (buildSelectQuery ⟨"t".data, ["*".data],
          [⟨"a".data, Op.eq, Val.prim "1".data⟩], [], [], none, none⟩).2).Nodup)
    ∧ ((phsAux (buildInsertQuery "t".data [("a".data, Val.prim "1".data)]).1).toFinset
        = (objKeys (buildInsertQuery "t".data [("a".data, Val.prim "1".data)]).2).toFinset
      ∧ (objKeys (buildInsertQuery "t".data [("a".data, Val.prim "1".data)]).2).Nodup)
    ∧ ((phsAux (buildUpdateQuery "t".data [("a".data, Val.prim "1".data)]
            [⟨"b".data, Op.eq, Val.prim "2".data⟩]).1).toFinset
        = (objKeys (buildUpdateQuery "t".data [("a".data, Val.prim "1".data)]
            [⟨"b".data, Op.eq, Val.prim "2".data⟩]).2).toFinset
      ∧ (objKeys (buildUpdateQuery "t".data [("a".data, Val.prim "1".data)]
            [⟨"b".data, Op.eq, Val.prim "2".data⟩]).2).Nodup)
    ∧ ((phsAux (buildDeleteQuery "t".data
            [⟨"a".data, Op.eq, Val.prim "1".data⟩]).1).toFinset
        = (objKeys (buildDeleteQuery "t".data
            [⟨"a".data, Op.eq, Val.prim "1".data⟩]).2).toFinset
      ∧ (objKeys (buildDeleteQuery "t".data
            [⟨"a".data, Op.eq, Val.prim "1".data⟩]).2).Nodup) := by
  have h := claim_c2_amended
  exact ⟨h.1 ⟨"t".data, ["*".data], [⟨"a".data, Op.eq, Val.prim "1".data⟩],
      [], [], none, none⟩ (by decide) (by decide) (by decide) (by decide) (by decide)
      (not_isSub_of_idxOf?_none (by decide)),
    h.2.1 "t".data [("a".data, Val.prim "1".data)] (by decide) (by decide) (by decide),
    h.2.2.1 "t".data [("a".data, Val.prim "1".data)]
      [⟨"b".data, Op.eq, Val.prim "2".data⟩] (by decide) (by decide) (by decide)
      (by decide),
    h.2.2.2 "t".data [⟨"a".data, Op.eq, Val.prim "1".data⟩] (by decide) (by decide)⟩
end SqlMcp
